import Mathlib

/-!
Verification development for the CAMeL-agreement-rules pipeline.

The two stages under scrutiny are
  scripts/01_sync_magold_to_conllu.py  (attribute-map codec, MAGOLD lookup
  builder, feature synchronizer) and
  scripts/02_extract_adj_mod_pairs.py  (token parsing, POS classifiers,
  adjective-modifier pair extraction).

Strings are embedded as lists of characters; Python dicts as association
lists whose insertion operation mirrors Python dict assignment (update the
existing slot in place, otherwise append).  Whitespace is modelled by the
six ASCII whitespace characters that Python str.strip and the regex class
handle on this data.  File input and output, path handling, printing of
statistics, and the debug-target trace accumulator of the synchronizer
(which never feeds back into the returned lines or counters) are out of
scope here; the functions below are the pure cores of the two scripts.
-/

abbrev Str := List Char

/-- The ASCII whitespace characters recognised by Python str.strip. -/
def isWS (c : Char) : Bool :=
  c = ' ' || c = '\t' || c = '\n' || c = '\x0d' || c = '\x0b' || c = '\x0c'

/-- Drop leading whitespace (Python lstrip). -/
def stripLeft : Str → Str
  | [] => []
  | c :: cs => if isWS c then stripLeft cs else c :: cs

/-- Drop trailing whitespace (Python rstrip). -/
def stripRight : Str → Str
  | [] => []
  | c :: cs =>
    let r := stripRight cs
    if r = [] then (if isWS c then [] else [c]) else c :: r

/-- Python str.strip. -/
def strip (s : Str) : Str := stripLeft (stripRight s)

/-- Auxiliary split: returns the segment before the first separator and the
remaining segments.  Mirrors Python str.split with a one-character separator. -/
def splitOnCharAux (c : Char) : Str → Str × List Str
  | [] => ([], [])
  | x :: xs =>
    let r := splitOnCharAux c xs
    if x = c then ([], r.1 :: r.2) else (x :: r.1, r.2)

/-- Python s.split(sep) for a one-character separator: always nonempty. -/
def splitOnChar (c : Char) (s : Str) : List Str :=
  ((splitOnCharAux c s).1) :: (splitOnCharAux c s).2

/-- Python sep.join for a one-character separator. -/
def joinC (c : Char) : List Str → Str
  | [] => []
  | [p] => p
  | p :: q :: ps => p ++ c :: joinC c (q :: ps)

/-- Python s.split(sep, 1): the text before the first separator and the rest,
or nothing when the separator does not occur. -/
def splitFirst (c : Char) : Str → Option (Str × Str)
  | [] => none
  | x :: xs =>
    if x = c then some ([], xs)
    else
      match splitFirst c xs with
      | none => none
      | some (a, b) => some (x :: a, b)

/-- Boolean test that p is an initial segment of s (Python startswith). -/
def hasPfx : Str → Str → Bool
  | [], _ => true
  | _ :: _, [] => false
  | p :: ps, c :: cs => p = c && hasPfx ps cs

/-- Lexicographic comparison on code points, Python string <=. -/
def strLe : Str → Str → Bool
  | [], _ => true
  | _ :: _, [] => false
  | a :: as, b :: bs => if a = b then strLe as bs else decide (a < b)

def insertSorted (x : Str) : List Str → List Str
  | [] => [x]
  | y :: ys => if strLe x y then x :: y :: ys else y :: insertSorted x ys

/-- Sorting of key lists; models Python sorted on strings. -/
def sortStrs : List Str → List Str
  | [] => []
  | x :: xs => insertSorted x (sortStrs xs)

/-- Python dict lookup (d.get): the value stored under k, if any.  Keys in the
association lists built below are unique, so the first hit is the value. -/
def lookupA {κ α : Type} [DecidableEq κ] (k : κ) : List (κ × α) → Option α
  | [] => none
  | (k', v) :: rest => if k' = k then some v else lookupA k rest

/-- Python dict assignment d[k] = v: overwrite in place or append. -/
def dinsert {κ α : Type} [DecidableEq κ] (k : κ) (v : α) : List (κ × α) → List (κ × α)
  | [] => [(k, v)]
  | (k', v') :: rest => if k' = k then (k, v) :: rest else (k', v') :: dinsert k v rest

/-- The value of the last entry for k, used to reason about repeated inserts. -/
def lookupLast {κ α : Type} [DecidableEq κ] (k : κ) : List (κ × α) → Option α
  | [] => none
  | (k', v) :: rest =>
    match lookupLast k rest with
    | some w => some w
    | none => if k' = k then some v else none

abbrev Dict := List (Str × Str)

/-- The association list has pairwise distinct keys (the Python dict invariant). -/
def nodupKeys {κ α : Type} (d : List (κ × α)) : Prop := (d.map Prod.fst).Nodup

/- ----------------------------------------------------------------
   01_sync_magold_to_conllu.py
   ---------------------------------------------------------------- -/

/-- parse_feats: strip, treat "" and "_" as empty, split on the pipe, keep the
segments holding an equals sign, split each on the first equals sign. -/
def parse_feats (feats : Str) : Dict :=
  let s := strip feats
  if s = [] ∨ s = ['_'] then []
  else
    (splitOnChar '|' s).foldl (fun d part =>
      match splitFirst '=' part with
      | some (k, v) => dinsert k v d
      | none => d) []

/-- format_feats: the empty map serialises to "_"; otherwise the keys are
sorted and the entries joined with pipes. -/
def format_feats (d : Dict) : Str :=
  if d = [] then ['_']
  else joinC '|' ((sortStrs (d.map Prod.fst)).map (fun k => k ++ '=' :: ((lookupA k d).getD [])))

/-- parse_misc: textually identical to parse_feats in the source. -/
def parse_misc (misc : Str) : Dict :=
  let s := strip misc
  if s = [] ∨ s = ['_'] then []
  else
    (splitOnChar '|' s).foldl (fun d part =>
      match splitFirst '=' part with
      | some (k, v) => dinsert k v d
      | none => d) []

def isWordChar (c : Char) : Bool := c.isAlphanum || c = '_'

/-- Model of re.search for the patterns used by extract_field: a word
boundary, the literal key, a colon, then a captured maximal nonempty run of
non-whitespace characters.  The keys used (gen, num, rat, diac, bw) all
begin with a word character, so the boundary holds exactly when the previous
character (if any) is not a word character.  The scan takes the leftmost
match, as re.search does. -/
def extractFieldAux (key : Str) : Option Char → Str → Option Str
  | _, [] => none
  | prev, c :: cs =>
    let boundary := match prev with
      | none => true
      | some p => !isWordChar p
    let rest := (c :: cs).drop (key.length + 1)
    if boundary && hasPfx (key ++ [':']) (c :: cs) && !(rest.takeWhile (fun a => !isWS a)).isEmpty
    then some (rest.takeWhile (fun a => !isWS a))
    else extractFieldAux key (some c) cs

/-- extract_field(line, key): first "key:VALUE" occurrence in the line. -/
def extract_field (line : Str) (key : Str) : Option Str :=
  extractFieldAux key none line

abbrev Triple := Str × Str × Str

abbrev Lookup := List (Str × Triple)

def genK : Str := "gen".toList
def numK : Str := "num".toList
def ratK : Str := "rat".toList
def diacK : Str := "diac".toList
def bwK : Str := "bw".toList
def naK : Str := "na".toList

/-- Python truthiness of an optional string: None and "" are falsy. -/
def optStrFalsy (o : Option Str) : Bool :=
  match o with
  | none => true
  | some s => s.isEmpty

/-- One iteration of the loop body of build_magold_lookup: strip the line,
keep only analysis lines (leading star), extract the four tagged fields,
discard unusable records, then register the diacritised key and the
buckwalter token key. -/
def magoldStep (lookup : Lookup) (line0 : Str) : Lookup :=
  let line := strip line0
  if line = [] ∨ ¬ line.head? = some '*' then lookup
  else
    let gen := extract_field line genK
    let num := extract_field line numK
    let rat := extract_field line ratK
    let diac := extract_field line diacK
    let bw_full := extract_field line bwK
    let bw_tok : Option Str :=
      match bw_full with
      | none => none
      | some b => some ((b.takeWhile (fun c => c ≠ '/')).dropWhile (fun c => c = '+'))
    if (gen = none ∨ gen = some naK) ∨ (num = none ∨ num = some naK)
        ∨ (rat = none ∨ rat = some naK) then lookup
    else
      let val : Triple := ((gen.getD []), (num.getD []), (rat.getD []))
      let lookup1 := if optStrFalsy diac then lookup else dinsert (diac.getD []) val lookup
      if optStrFalsy bw_tok then lookup1 else dinsert (bw_tok.getD []) val lookup1

/-- build_magold_lookup over the list of read lines. -/
def build_magold_lookup (lines : List Str) : Lookup :=
  lines.foldl magoldStep []

def spbK : Str := "surface_plus_bw".toList
def sfbK : Str := "surface_form_bw".toList

/-- choose_conllu_key: the surface-plus key wins, else the surface-form key. -/
def choose_conllu_key (misc : Dict) : Option Str :=
  match lookupA spbK misc with
  | some v => some v
  | none => lookupA sfbK misc

/-- The three conditional overwrites of gen, num and rat inside
sync_conllu_with_magold, together with the changed flag. -/
def mergeTriple (feats : Dict) (g n r : Str) : Dict × Bool :=
  let s1 := if lookupA genK feats = some g then (feats, false) else (dinsert genK g feats, true)
  let s2 := if lookupA numK s1.1 = some n then s1 else (dinsert numK n s1.1, true)
  if lookupA ratK s2.1 = some r then s2 else (dinsert ratK r s2.1, true)

/-- One iteration of the loop of sync_conllu_with_magold: the output line,
the matched flag and the updated flag for one input line.  The empty-string
test after key resolution mirrors Python falsiness of the resolved key. -/
def syncLine (lookup : Lookup) (ln : Str) : Str × Bool × Bool :=
  if strip ln = [] ∨ ln.head? = some '#' then (ln, false, false)
  else
    let cols := splitOnChar '\t' ln
    if cols.length < 10 then (ln, false, false)
    else
      let feats_str := cols.getD 5 []
      let misc_str := cols.getD 9 []
      let feats := parse_feats feats_str
      let misc := parse_misc misc_str
      match choose_conllu_key misc with
      | none => (ln, false, false)
      | some key =>
        if key = [] then (ln, false, false)
        else
          match lookupA key lookup with
          | none => (ln, false, false)
          | some (g, n, r) =>
            let m := mergeTriple feats g n r
            if m.2 then (joinC '\t' (cols.set 5 (format_feats m.1)), true, true)
            else (ln, true, false)

/-- sync_conllu_with_magold: the output lines and the matched and updated
counters (the debug trace of the script is not part of this result). -/
def sync_conllu_with_magold (conllu_lines : List Str) (mag_lookup : Lookup) :
    List Str × Nat × Nat :=
  conllu_lines.foldl (fun acc ln =>
    let r := syncLine mag_lookup ln
    (acc.1 ++ [r.1], acc.2.1 + (if r.2.1 then 1 else 0), acc.2.2 + (if r.2.2 then 1 else 0)))
    ([], 0, 0)

/- ----------------------------------------------------------------
   02_extract_adj_mod_pairs.py
   ---------------------------------------------------------------- -/

/-- One token row of the tabular tree, as built by parse_token_line.  The
lemma column keeps the Python name lemma under the field name lemm, which is
a reserved word here. -/
structure Tok where
  id : Nat
  form : Str
  lemm : Str
  upos : Str
  xpos : Str
  feats_raw : Str
  head : Nat
  deprel : Str
  deps : Str
  misc_raw : Str
deriving DecidableEq, Inhabited

/-- Python str.isdigit on the ASCII data of this corpus: nonempty and all
decimal digits. -/
def pyIsdigit (s : Str) : Bool := !s.isEmpty && s.all Char.isDigit

def digitsVal (s : Str) : Nat := s.foldl (fun n c => n * 10 + (c.toNat - '0'.toNat)) 0

/-- Tail of a Python integer literal after at least one digit: digits with
single interior underscores. -/
def digitRun : Str → Bool
  | [] => true
  | '_' :: c :: cs => c.isDigit && digitRun cs
  | '_' :: [] => false
  | c :: cs => c.isDigit && digitRun cs

/-- Model of Python int(s) for the id strings that reach it (the dash filter
has already excluded a minus sign): optional surrounding whitespace, an
optional plus sign, then digits with underscore grouping.  The none result
models the ValueError the script would raise; no claim exercises that path. -/
def pyInt (s : Str) : Option Nat :=
  let t := strip s
  let t := match t with
    | '+' :: r => r
    | _ => t
  match t with
  | [] => none
  | c :: cs => if c.isDigit && digitRun cs then some (digitsVal (t.filter (fun a => a ≠ '_'))) else none

/-- parse_token_line: comments and short lines give no token; an id holding a
dash or a dot (multi-word span or empty node) gives no token; the head column
is read as a number only when it passes isdigit, else 0. -/
def parse_token_line (line : Str) : Option Tok :=
  if line.head? = some '#' then none
  else
    let cols := splitOnChar '\t' line
    if cols.length < 10 then none
    else
      let tok_id := cols.getD 0 []
      if tok_id.contains '-' ∨ tok_id.contains '.' then none
      else
        match pyInt tok_id with
        | none => none
        | some i =>
          some { id := i
                 form := cols.getD 1 []
                 lemm := cols.getD 2 []
                 upos := cols.getD 3 []
                 xpos := cols.getD 4 []
                 feats_raw := cols.getD 5 []
                 head := if pyIsdigit (cols.getD 6 []) then digitsVal (cols.getD 6 []) else 0
                 deprel := cols.getD 7 []
                 deps := cols.getD 8 []
                 misc_raw := cols.getD 9 [] }

/-- read_conllu_sentences: maximal runs of non-blank lines. -/
def read_conllu_sentences (lines : List Str) : List (List Str) :=
  let acc := lines.foldl (fun (acc : List (List Str) × List Str) line =>
    if strip line = [] then (if acc.2 ≠ [] then (acc.1 ++ [acc.2], []) else acc)
    else (acc.1, acc.2 ++ [line])) ([], [])
  if acc.2 ≠ [] then acc.1 ++ [acc.2] else acc.1

def adjK : Str := "ADJ".toList
def adjLowerK : Str := "adj".toList
def jjK : Str := "JJ".toList
def nounK : Str := "NOUN".toList
def nounLowerK : Str := "noun".toList
def madaK : Str := "mada".toList
def kulickK : Str := "kulick".toList
def modRelK : Str := "MOD".toList

/-- is_adj_token: any of the four independent signals. -/
def is_adj_token (_upos _xpos : Str) (misc : Dict) : Bool :=
  let bw := (lookupA bwK misc).getD []
  let mada := (lookupA madaK misc).getD []
  let kulick := (lookupA kulickK misc).getD []
  if hasPfx adjK bw then true
  else if mada = adjLowerK then true
  else if kulick = jjK then true
  else if (splitOnChar '+' bw).contains adjK then true
  else false

/-- is_noun_like: buckwalter tag starts with NOUN, or the mada tag is noun. -/
def is_noun_like (misc : Dict) (_upos _xpos : Str) : Bool :=
  let bw := (lookupA bwK misc).getD []
  let mada := (lookupA madaK misc).getD []
  if hasPfx nounK bw then true
  else if mada = nounLowerK then true
  else false

/-- The per-sentence id-to-token mapping built by the extraction loop.  The
feats and misc dicts the script attaches to each token are pure functions of
the raw columns and are recomputed at use sites below. -/
def sentTokens (sent_lines : List Str) : List (Nat × Tok) :=
  sent_lines.foldl (fun tks ln =>
    match parse_token_line ln with
    | none => tks
    | some t => dinsert t.id t tks) []

/-- One emitted pair row of the extractor. -/
structure Row where
  sent_idx : Nat
  adj_id : Nat
  adj_form : Str
  adj_lemma : Str
  adj_feats : Str
  adj_misc : Str
  head_id : Nat
  head_form : Str
  head_lemma : Str
  head_feats : Str
  head_misc : Str
  deprel : Str
deriving DecidableEq, Inhabited

def mkRow (si : Nat) (dep_id : Nat) (dep h : Tok) : Row :=
  { sent_idx := si
    adj_id := dep_id
    adj_form := dep.form
    adj_lemma := dep.lemm
    adj_feats := dep.feats_raw
    adj_misc := dep.misc_raw
    head_id := dep.head
    head_form := h.form
    head_lemma := h.lemm
    head_feats := h.feats_raw
    head_misc := h.misc_raw
    deprel := dep.deprel }

/-- The inner loop over one sentence: for every stored token, require the
modifier relation, the adjective test, a resolvable head and the noun-like
test, then emit the row. -/
def sentRows (si : Nat) (toks : List (Nat × Tok)) : List Row :=
  toks.foldl (fun rows p =>
    let dep := p.2
    if dep.deprel = modRelK then
      if is_adj_token dep.upos dep.xpos (parse_misc dep.misc_raw) then
        match lookupA dep.head toks with
        | some h =>
          if is_noun_like (parse_misc h.misc_raw) h.upos h.xpos then rows ++ [mkRow si p.1 dep h]
          else rows
        | none => rows
      else rows
    else rows) []

/-- The extraction pipeline of main: sentences, per-sentence token maps,
pair rows in sentence order with one-based sentence ordinals. -/
def extractPairs (lines : List Str) : List Row :=
  (read_conllu_sentences lines).enum.foldl (fun rows p =>
    rows ++ sentRows (p.1 + 1) (sentTokens p.2)) []

/- ----------------------------------------------------------------
   Proof infrastructure: auxiliary definitions used by the theorems
   ---------------------------------------------------------------- -/

/-- Apply f to the head of a list, if any. -/
def modHead {α : Type} (f : α → α) : List α → List α
  | [] => []
  | x :: xs => f x :: xs

/-- Apply f to the last element of a list, if any. -/
def modLast {α : Type} (f : α → α) : List α → List α
  | [] => []
  | [x] => [f x]
  | x :: y :: xs => x :: modLast f (y :: xs)

/-- The sorted key-value pair list underlying format_feats. -/
def mkPairs (d : Dict) : List (Str × Str) :=
  (sortStrs (d.map Prod.fst)).map (fun k => (k, (lookupA k d).getD []))

/-- One serialized entry of format_feats. -/
def partOf (p : Str × Str) : Str := p.1 ++ '=' :: p.2

/-- The effect of the whole-string strip of parse_feats on the pair list:
the first key loses leading whitespace, the last value loses trailing
whitespace. -/
def tweak (l : List (Str × Str)) : List (Str × Str) :=
  modHead (fun p => (stripLeft p.1, p.2))
    (modLast (fun p => (p.1, stripRight p.2)) l)

/-- A string with none of the characters that the codec treats specially. -/
def plainStr (s : Str) : Prop := '=' ∉ s ∧ '|' ∉ s ∧ ∀ c ∈ s, isWS c = false

/-- A lookup value that survives re-parsing of a serialized feature column:
no pipe and no whitespace (the builder only ever produces such values, since
its regex captures runs of non-whitespace, but pipes can occur there). -/
def syncSafe (s : Str) : Prop := '|' ∉ s ∧ ∀ c ∈ s, isWS c = false

instance : DecidablePred plainStr := fun s => by unfold plainStr; infer_instance

instance {κ α : Type} [DecidableEq κ] (d : List (κ × α)) : Decidable (nodupKeys d) := by
  unfold nodupKeys; infer_instance

instance : DecidablePred syncSafe := fun s => by unfold syncSafe; infer_instance

/- Concrete inputs used by the example theorems below. -/

def c1Line : Str := "1-2\tf\tl\tu\tx\t_\t0\tr\t_\tsurface_plus_bw=K".toList

def c1Lookup : Lookup := [("K".toList, ("f".toList, "p".toList, "i".toList))]

def c2Map : Dict := [("a|b".toList, "c".toList)]

def c3Lines : List Str := ["1\tf\tl\tu\tx\t_\t0\tr\t_\tsurface_plus_bw=K".toList]

def c3Lookup : Lookup := [("K".toList, ("a|b".toList, "p".toList, "i".toList))]

def c4Line : Str := "1\tf\tl\tu\tx\tgen=f|num=p|rat=i\t0\tr\t_\tsurface_plus_bw=".toList

def c4Lookup : Lookup := [([], ("f".toList, "p".toList, "i".toList))]

def c4wLine : Str := "1\tf\tl\tu\tx\tgen=f|num=p|rat=i\t0\tr\t_\tsurface_plus_bw=K".toList

def c5Misc : Dict := [(spbK, "X".toList), (sfbK, "Y".toList)]

def c6Line : Str := "*1.0 bw:++X/NOUN gen:f num:p rat:i".toList

def c6naLine : Str := "*1.0 gen:na num:p rat:i".toList

def c7Lines : List Str :=
  ["1\tA\tl\tu\tx\t_\t2\tMOD\t_\tbw=ADJ_y".toList,
   "2\tN\tl\tu\tx\t_\t0\tROOT\t_\tbw=NOUN_x".toList]

def c7Row : Row :=
  { sent_idx := 1
    adj_id := 1
    adj_form := "A".toList
    adj_lemma := "l".toList
    adj_feats := "_".toList
    adj_misc := "bw=ADJ_y".toList
    head_id := 2
    head_form := "N".toList
    head_lemma := "l".toList
    head_feats := "_".toList
    head_misc := "bw=NOUN_x".toList
    deprel := "MOD".toList }

def c9Lookup : Lookup := [("K".toList, ("a\tb".toList, "p".toList, "i".toList))]

def c10Lines : List Str :=
  ["0\tN\tl\tu\tx\t_\t0\tROOT\t_\tbw=NOUN_x".toList,
   "1\tA\tl\tu\tx\t_\t0\tMOD\t_\tbw=ADJ_y".toList]

def c10wLine : Str := "1\tA\tl\tu\tx\t_\tzz\tMOD\t_\t_".toList

def c10wTok : Tok :=
  { id := 1
    form := "A".toList
    lemm := "l".toList
    upos := "u".toList
    xpos := "x".toList
    feats_raw := "_".toList
    head := 0
    deprel := "MOD".toList
    deps := "_".toList
    misc_raw := "_".toList }

/- ----------------------------------------------------------------
   Lemmas about the string utilities
   ---------------------------------------------------------------- -/

theorem joinC_cons (c x : Char) (h : Str) (t : List Str) :
    joinC c ((x :: h) :: t) = x :: joinC c (h :: t) := by
  cases t <;> simp [joinC]

theorem joinC_splitOnChar (c : Char) (s : Str) : joinC c (splitOnChar c s) = s := by
  induction s with
  | nil => rfl
  | cons x xs ih =>
    unfold splitOnChar splitOnCharAux
    by_cases h : x = c
    · subst h
      simp only [if_pos rfl]
      cases hx : splitOnCharAux x xs with
      | mk h1 t1 =>
        have : joinC x (h1 :: t1) = xs := by
          simpa [splitOnChar, hx] using ih
        simp [joinC, this]
    · simp only [if_neg h]
      cases hx : splitOnCharAux c xs with
      | mk h1 t1 =>
        have hxs : joinC c (h1 :: t1) = xs := by
          simpa [splitOnChar, hx] using ih
        simp [joinC_cons, hxs]

theorem splitOnCharAux_no_sep {c : Char} {s : Str} (h : c ∉ s) :
    splitOnCharAux c s = (s, []) := by
  induction s with
  | nil => rfl
  | cons x xs ih =>
    have hx : ¬ x = c := fun he => h (by simp [he])
    have ih' := ih (fun hm => h (List.mem_cons_of_mem _ hm))
    simp [splitOnCharAux, hx, ih']

theorem splitOnChar_no_sep {c : Char} {s : Str} (h : c ∉ s) :
    splitOnChar c s = [s] := by
  simp [splitOnChar, splitOnCharAux_no_sep h]

theorem splitOnCharAux_append {c : Char} {p t : Str} (h : c ∉ p) :
    splitOnCharAux c (p ++ c :: t) = (p, (splitOnCharAux c t).1 :: (splitOnCharAux c t).2) := by
  induction p with
  | nil => simp [splitOnCharAux]
  | cons x xs ih =>
    have hx : ¬ x = c := fun he => h (by simp [he])
    have ih' := ih (fun hm => h (List.mem_cons_of_mem _ hm))
    simp [splitOnCharAux, hx, ih']

theorem splitOnChar_joinC {c : Char} {ps : List Str}
    (hps : ∀ p ∈ ps, c ∉ p) (hne : ps ≠ []) :
    splitOnChar c (joinC c ps) = ps := by
  induction ps with
  | nil => exact absurd rfl hne
  | cons p rest ih =>
    cases rest with
    | nil =>
      simpa [joinC] using splitOnChar_no_sep (hps p (by simp))
    | cons q rest' =>
      have hjoin : joinC c (p :: q :: rest') = p ++ c :: joinC c (q :: rest') := rfl
      have hp : c ∉ p := hps p (by simp)
      have ih' := ih (fun x hx => hps x (List.mem_cons_of_mem _ hx)) (by simp)
      rw [hjoin]
      unfold splitOnChar
      rw [splitOnCharAux_append hp]
      have h2 : (splitOnCharAux c (joinC c (q :: rest'))).1 ::
          (splitOnCharAux c (joinC c (q :: rest'))).2 = q :: rest' := ih'
      simpa using h2

theorem splitOnCharAux_mem {c : Char} {s : Str} :
    (∀ x ∈ (splitOnCharAux c s).1, x ∈ s ∧ x ≠ c) ∧
    (∀ p ∈ (splitOnCharAux c s).2, ∀ x ∈ p, x ∈ s ∧ x ≠ c) := by
  induction s with
  | nil => simp [splitOnCharAux]
  | cons y ys ih =>
    by_cases hy : y = c
    · subst hy
      refine ⟨by simp [splitOnCharAux], ?_⟩
      intro p hp x hx
      simp only [splitOnCharAux, if_pos rfl] at hp
      rcases List.mem_cons.mp hp with h1 | h2
      · subst h1
        have := ih.1 x hx
        exact ⟨List.mem_cons_of_mem _ this.1, this.2⟩
      · have := ih.2 p h2 x hx
        exact ⟨List.mem_cons_of_mem _ this.1, this.2⟩
    · constructor
      · intro x hx
        simp only [splitOnCharAux, if_neg hy] at hx
        rcases List.mem_cons.mp hx with h1 | h2
        · subst h1; exact ⟨by simp, hy⟩
        · have := ih.1 x h2
          exact ⟨List.mem_cons_of_mem _ this.1, this.2⟩
      · intro p hp x hx
        simp only [splitOnCharAux, if_neg hy] at hp
        have := ih.2 p hp x hx
        exact ⟨List.mem_cons_of_mem _ this.1, this.2⟩

theorem mem_splitOnChar {c : Char} {s p : Str} (hp : p ∈ splitOnChar c s) :
    ∀ x ∈ p, x ∈ s ∧ x ≠ c := by
  intro x hx
  unfold splitOnChar at hp
  rcases List.mem_cons.mp hp with h1 | h2
  · subst h1; exact splitOnCharAux_mem.1 x hx
  · exact splitOnCharAux_mem.2 p h2 x hx

theorem splitFirst_app {c : Char} {a b : Str} (h : c ∉ a) :
    splitFirst c (a ++ c :: b) = some (a, b) := by
  induction a with
  | nil => simp [splitFirst]
  | cons x xs ih =>
    have hx : ¬ x = c := fun he => h (by simp [he])
    have ih' := ih (fun hm => h (List.mem_cons_of_mem _ hm))
    simp [splitFirst, hx, ih']

theorem splitFirst_some {c : Char} {s a b : Str} (h : splitFirst c s = some (a, b)) :
    s = a ++ c :: b ∧ c ∉ a := by
  induction s generalizing a b with
  | nil => simp [splitFirst] at h
  | cons x xs ih =>
    by_cases hx : x = c
    · subst hx
      unfold splitFirst at h
      rw [if_pos rfl] at h
      simp only [Option.some.injEq, Prod.mk.injEq] at h
      obtain ⟨h1, h2⟩ := h
      subst h1; subst h2
      simp
    · simp only [splitFirst, if_neg hx] at h
      cases hrec : splitFirst c xs with
      | none => rw [hrec] at h; simp at h
      | some p =>
        obtain ⟨a', b'⟩ := p
        rw [hrec] at h
        simp only [Option.some.injEq, Prod.mk.injEq] at h
        obtain ⟨ha, hb⟩ := h
        obtain ⟨hd, hni⟩ := ih hrec
        subst hb
        subst ha
        refine ⟨by simp [hd], ?_⟩
        intro hmem
        rcases List.mem_cons.mp hmem with he | hm
        · exact hx he.symm
        · exact hni hm

theorem splitFirst_none {c : Char} {s : Str} (h : c ∉ s) : splitFirst c s = none := by
  induction s with
  | nil => rfl
  | cons x xs ih =>
    have hx : ¬ x = c := fun he => h (by simp [he])
    have ih' := ih (fun hm => h (List.mem_cons_of_mem _ hm))
    simp [splitFirst, hx, ih']


theorem stripLeft_cons (x : Char) (xs : Str) :
    stripLeft (x :: xs) = if isWS x then stripLeft xs else x :: xs := rfl

theorem stripRight_cons (x : Char) (xs : Str) :
    stripRight (x :: xs) =
      if stripRight xs = [] then (if isWS x then [] else [x]) else x :: stripRight xs := rfl

theorem stripLeft_eq_nil {s : Str} : stripLeft s = [] ↔ ∀ x ∈ s, isWS x = true := by
  induction s with
  | nil => simp [stripLeft]
  | cons x xs ih =>
    rw [stripLeft_cons]
    by_cases hx : isWS x = true
    · simp [hx, ih]
    · rw [if_neg hx]
      constructor
      · intro h
        exact absurd h (by simp)
      · intro hall
        exact absurd (hall x (by simp)) hx

theorem stripLeft_append_of_ne {a : Str} (b : Str) (h : stripLeft a ≠ []) :
    stripLeft (a ++ b) = stripLeft a ++ b := by
  induction a with
  | nil => exact absurd rfl h
  | cons x xs ih =>
    by_cases hx : isWS x = true
    · have h' : stripLeft xs ≠ [] := by
        rw [stripLeft_cons, if_pos hx] at h
        exact h
      simp only [List.cons_append]
      rw [stripLeft_cons, if_pos hx, stripLeft_cons, if_pos hx]
      exact ih h'
    · simp only [List.cons_append]
      rw [stripLeft_cons, if_neg hx, stripLeft_cons, if_neg hx]
      simp

theorem stripLeft_append_ws {a : Str} (b : Str) (h : ∀ x ∈ a, isWS x = true) :
    stripLeft (a ++ b) = stripLeft b := by
  induction a with
  | nil => rfl
  | cons x xs ih =>
    have hx := h x (by simp)
    simp only [List.cons_append]
    rw [stripLeft_cons, if_pos hx]
    exact ih (fun y hy => h y (List.mem_cons_of_mem _ hy))

theorem stripLeft_cons_not_ws {e : Char} (v : Str) (he : isWS e = false) :
    stripLeft (e :: v) = e :: v := by
  rw [stripLeft_cons, if_neg (by simp [he])]

theorem stripLeft_mid {k : Str} {e : Char} (v : Str) (he : isWS e = false) :
    stripLeft (k ++ e :: v) = stripLeft k ++ e :: v := by
  by_cases h : stripLeft k = []
  · rw [h, List.nil_append, stripLeft_append_ws _ (stripLeft_eq_nil.mp h)]
    exact stripLeft_cons_not_ws v he
  · exact stripLeft_append_of_ne _ h

theorem mem_of_mem_stripLeft {x : Char} {s : Str} (h : x ∈ stripLeft s) : x ∈ s := by
  induction s with
  | nil => simp [stripLeft] at h
  | cons y ys ih =>
    rw [stripLeft_cons] at h
    by_cases hy : isWS y = true
    · rw [if_pos hy] at h
      exact List.mem_cons_of_mem _ (ih h)
    · rwa [if_neg hy] at h

theorem mem_stripLeft_of_not_ws {x : Char} {s : Str} (hx : isWS x = false) (h : x ∈ s) :
    x ∈ stripLeft s := by
  induction s with
  | nil => simp at h
  | cons y ys ih =>
    rw [stripLeft_cons]
    by_cases hy : isWS y = true
    · rw [if_pos hy]
      have hxy : x ≠ y := fun he => by rw [he, hy] at hx; cases hx
      rcases List.mem_cons.mp h with h1 | h2
      · exact absurd h1 hxy
      · exact ih h2
    · rwa [if_neg hy]

theorem stripLeft_eq_self {s : Str} (h : ∀ x ∈ s, isWS x = false) : stripLeft s = s := by
  cases s with
  | nil => rfl
  | cons x xs => rw [stripLeft_cons, if_neg (by simp [h x (by simp)])]

theorem stripRight_eq_nil {s : Str} : stripRight s = [] ↔ ∀ x ∈ s, isWS x = true := by
  induction s with
  | nil => simp [stripRight]
  | cons x xs ih =>
    rw [stripRight_cons]
    constructor
    · intro h
      by_cases hr : stripRight xs = []
      · rw [if_pos hr] at h
        by_cases hx : isWS x = true
        · intro y hy
          rcases List.mem_cons.mp hy with h1 | h2
          · rw [h1]; exact hx
          · exact ih.mp hr y h2
        · rw [if_neg hx] at h
          exact absurd h (by simp)
      · rw [if_neg hr] at h
        exact absurd h (by simp)
    · intro hall
      have hr : stripRight xs = [] := ih.mpr (fun y hy => hall y (List.mem_cons_of_mem _ hy))
      rw [if_pos hr, if_pos (hall x (by simp))]

theorem stripRight_append_of_ne (a : Str) {b : Str} (h : stripRight b ≠ []) :
    stripRight (a ++ b) = a ++ stripRight b := by
  induction a with
  | nil => rfl
  | cons x xs ih =>
    have hne : stripRight (xs ++ b) ≠ [] := by
      rw [ih]
      intro hc
      rcases List.append_eq_nil.mp hc with ⟨_, h2⟩
      exact h h2
    simp only [List.cons_append]
    rw [stripRight_cons, if_neg hne, ih]

theorem stripRight_append_ws (a : Str) {b : Str} (h : ∀ x ∈ b, isWS x = true) :
    stripRight (a ++ b) = stripRight a := by
  induction a with
  | nil => simpa [stripRight] using stripRight_eq_nil.mpr h
  | cons x xs ih =>
    simp only [List.cons_append]
    rw [stripRight_cons, ih, ← stripRight_cons]

theorem stripRight_singleton {e : Char} (he : isWS e = false) : stripRight [e] = [e] := by
  rw [stripRight_cons]
  simp [stripRight, he]

theorem stripRight_mid {v : Str} {e : Char} (k : Str) (he : isWS e = false) :
    stripRight (k ++ e :: v) = k ++ e :: stripRight v := by
  by_cases h : stripRight v = []
  · have hsplit : k ++ e :: v = (k ++ [e]) ++ v := by simp
    rw [hsplit, stripRight_append_ws _ (stripRight_eq_nil.mp h),
      stripRight_append_of_ne k (b := [e]) (by rw [stripRight_singleton he]; simp),
      stripRight_singleton he, h]
  · have hb : stripRight (e :: v) = e :: stripRight v := by
      rw [stripRight_cons, if_neg h]
    rw [stripRight_append_of_ne k (b := e :: v) (by rw [hb]; simp), hb]

theorem mem_of_mem_stripRight {x : Char} {s : Str} (h : x ∈ stripRight s) : x ∈ s := by
  induction s with
  | nil => simp [stripRight] at h
  | cons y ys ih =>
    rw [stripRight_cons] at h
    by_cases hr : stripRight ys = []
    · rw [if_pos hr] at h
      by_cases hy : isWS y = true
      · rw [if_pos hy] at h
        simp at h
      · rw [if_neg hy] at h
        simp at h
        simp [h]
    · rw [if_neg hr] at h
      rcases List.mem_cons.mp h with h1 | h2
      · simp [h1]
      · exact List.mem_cons_of_mem _ (ih h2)

theorem mem_stripRight_of_not_ws {x : Char} {s : Str} (hx : isWS x = false) (h : x ∈ s) :
    x ∈ stripRight s := by
  induction s with
  | nil => simp at h
  | cons y ys ih =>
    rw [stripRight_cons]
    by_cases hr : stripRight ys = []
    · rcases List.mem_cons.mp h with h1 | h2
      · subst h1
        rw [if_pos hr, if_neg (by simp [hx])]
        simp
      · exact absurd (ih h2) (by simp [hr])
    · rw [if_neg hr]
      rcases List.mem_cons.mp h with h1 | h2
      · simp [h1]
      · exact List.mem_cons_of_mem _ (ih h2)

theorem stripRight_eq_self {s : Str} (h : ∀ x ∈ s, isWS x = false) : stripRight s = s := by
  induction s with
  | nil => rfl
  | cons x xs ih =>
    rw [stripRight_cons, ih (fun y hy => h y (List.mem_cons_of_mem _ hy))]
    by_cases hxs : xs = []
    · subst hxs
      simp [h x (by simp)]
    · rw [if_neg hxs]

theorem strip_eq_self {s : Str} (h : ∀ x ∈ s, isWS x = false) : strip s = s := by
  unfold strip
  rw [stripRight_eq_self h, stripLeft_eq_self h]

theorem mem_of_mem_strip {x : Char} {s : Str} (h : x ∈ strip s) : x ∈ s :=
  mem_of_mem_stripRight (mem_of_mem_stripLeft h)

theorem insertSorted_perm (x : Str) (l : List Str) : List.Perm (insertSorted x l) (x :: l) := by
  induction l with
  | nil => exact List.Perm.refl _
  | cons y ys ih =>
    unfold insertSorted
    by_cases h : strLe x y = true
    · rw [if_pos h]
    · rw [if_neg h]
      exact (ih.cons y).trans (List.Perm.swap x y ys)

theorem sortStrs_perm (l : List Str) : List.Perm (sortStrs l) l := by
  induction l with
  | nil => exact List.Perm.refl _
  | cons x xs ih =>
    exact (insertSorted_perm x (sortStrs xs)).trans (ih.cons x)

theorem lookupA_nil {κ α : Type} [DecidableEq κ] (k : κ) : lookupA k ([] : List (κ × α)) = none := rfl

theorem lookupA_cons {κ α : Type} [DecidableEq κ] (q k' : κ) (v' : α) (rest : List (κ × α)) :
    lookupA q ((k', v') :: rest) = if k' = q then some v' else lookupA q rest := rfl

theorem dinsert_nil {κ α : Type} [DecidableEq κ] (k : κ) (v : α) :
    dinsert k v ([] : List (κ × α)) = [(k, v)] := rfl

theorem dinsert_cons {κ α : Type} [DecidableEq κ] (k k' : κ) (v v' : α) (rest : List (κ × α)) :
    dinsert k v ((k', v') :: rest) =
      if k' = k then (k, v) :: rest else (k', v') :: dinsert k v rest := rfl

theorem lookupLast_nil {κ α : Type} [DecidableEq κ] (k : κ) :
    lookupLast k ([] : List (κ × α)) = none := rfl

theorem lookupLast_cons {κ α : Type} [DecidableEq κ] (k k' : κ) (v' : α) (rest : List (κ × α)) :
    lookupLast k ((k', v') :: rest) =
      match lookupLast k rest with
      | some w => some w
      | none => if k' = k then some v' else none := rfl

theorem lookupA_dinsert_self {κ α : Type} [DecidableEq κ] (k : κ) (v : α)
    (d : List (κ × α)) : lookupA k (dinsert k v d) = some v := by
  induction d with
  | nil => simp [dinsert_nil, lookupA_cons]
  | cons p rest ih =>
    obtain ⟨k', v'⟩ := p
    by_cases h : k' = k
    · rw [dinsert_cons, if_pos h, lookupA_cons, if_pos rfl]
    · rw [dinsert_cons, if_neg h, lookupA_cons, if_neg (fun he => h he), ih]

theorem lookupA_dinsert_ne {κ α : Type} [DecidableEq κ] {q k : κ} (v : α)
    (d : List (κ × α)) (h : q ≠ k) : lookupA q (dinsert k v d) = lookupA q d := by
  have hkq : ¬ k = q := fun he => h he.symm
  induction d with
  | nil => rw [dinsert_nil, lookupA_cons, if_neg hkq, lookupA_nil]
  | cons p rest ih =>
    obtain ⟨k', v'⟩ := p
    by_cases hk : k' = k
    · subst hk
      rw [dinsert_cons, if_pos rfl, lookupA_cons, lookupA_cons, if_neg hkq, if_neg hkq]
    · rw [dinsert_cons, if_neg hk, lookupA_cons, lookupA_cons]
      by_cases hq : k' = q
      · rw [if_pos hq, if_pos hq]
      · rw [if_neg hq, if_neg hq, ih]

theorem mem_dinsert {κ α : Type} [DecidableEq κ] {p : κ × α} {k : κ} {v : α}
    {d : List (κ × α)} (h : p ∈ dinsert k v d) : p = (k, v) ∨ p ∈ d := by
  induction d with
  | nil => simpa [dinsert_nil] using h
  | cons q rest ih =>
    obtain ⟨k', v'⟩ := q
    by_cases hk : k' = k
    · rw [dinsert_cons, if_pos hk] at h
      rcases List.mem_cons.mp h with h1 | h2
      · exact Or.inl h1
      · exact Or.inr (List.mem_cons_of_mem _ h2)
    · rw [dinsert_cons, if_neg hk] at h
      rcases List.mem_cons.mp h with h1 | h2
      · exact Or.inr (by simp [h1])
      · rcases ih h2 with h3 | h4
        · exact Or.inl h3
        · exact Or.inr (List.mem_cons_of_mem _ h4)

theorem mem_map_fst_dinsert {κ α : Type} [DecidableEq κ] {a k : κ} {v : α}
    {d : List (κ × α)} : a ∈ (dinsert k v d).map Prod.fst ↔ a = k ∨ a ∈ d.map Prod.fst := by
  induction d with
  | nil => simp [dinsert_nil]
  | cons q rest ih =>
    obtain ⟨k', v'⟩ := q
    by_cases hk : k' = k
    · subst hk
      rw [dinsert_cons, if_pos rfl]
      simp only [List.map_cons, List.mem_cons]
      tauto
    · rw [dinsert_cons, if_neg hk]
      simp only [List.map_cons, List.mem_cons, ih]
      tauto

theorem nodupKeys_dinsert {κ α : Type} [DecidableEq κ] (k : κ) (v : α)
    {d : List (κ × α)} (h : nodupKeys d) : nodupKeys (dinsert k v d) := by
  induction d with
  | nil => simp [dinsert_nil, nodupKeys]
  | cons q rest ih =>
    obtain ⟨k', v'⟩ := q
    have hrest : nodupKeys rest := (List.nodup_cons.mp h).2
    have hout : k' ∉ rest.map Prod.fst := (List.nodup_cons.mp h).1
    by_cases hk : k' = k
    · subst hk
      unfold nodupKeys
      rw [dinsert_cons, if_pos rfl]
      exact List.nodup_cons.mpr ⟨hout, hrest⟩
    · unfold nodupKeys
      rw [dinsert_cons, if_neg hk]
      refine List.nodup_cons.mpr ⟨?_, ih hrest⟩
      intro hc
      rcases mem_map_fst_dinsert.mp hc with h1 | h2
      · exact hk h1
      · exact hout h2

theorem lookupA_eq_none {κ α : Type} [DecidableEq κ] {k : κ} {d : List (κ × α)} :
    lookupA k d = none ↔ k ∉ d.map Prod.fst := by
  induction d with
  | nil => simp [lookupA_nil]
  | cons p rest ih =>
    obtain ⟨k', v'⟩ := p
    rw [lookupA_cons]
    by_cases h : k' = k
    · subst h
      simp
    · rw [if_neg h]
      simp only [List.map_cons, List.mem_cons, ih]
      constructor
      · intro hn hc
        rcases hc with h1 | h2
        · exact h h1.symm
        · exact hn h2
      · intro hn h2
        exact hn (Or.inr h2)

theorem lookupA_some_mem {κ α : Type} [DecidableEq κ] {k : κ} {v : α}
    {d : List (κ × α)} (h : lookupA k d = some v) : (k, v) ∈ d := by
  induction d with
  | nil => simp [lookupA_nil] at h
  | cons p rest ih =>
    obtain ⟨k', v'⟩ := p
    by_cases hk : k' = k
    · subst hk
      rw [lookupA_cons, if_pos rfl] at h
      simp only [Option.some.injEq] at h
      simp [h]
    · rw [lookupA_cons, if_neg hk] at h
      exact List.mem_cons_of_mem _ (ih h)

theorem mem_map_fst_of_lookupA_some {κ α : Type} [DecidableEq κ] {k : κ} {v : α}
    {d : List (κ × α)} (h : lookupA k d = some v) : k ∈ d.map Prod.fst :=
  List.mem_map.mpr ⟨(k, v), lookupA_some_mem h, rfl⟩

theorem lookupLast_append {κ α : Type} [DecidableEq κ] (k : κ) (l1 l2 : List (κ × α)) :
    lookupLast k (l1 ++ l2) =
      match lookupLast k l2 with
      | some w => some w
      | none => lookupLast k l1 := by
  induction l1 with
  | nil =>
    simp only [List.nil_append]
    cases lookupLast k l2 <;> rfl
  | cons p rest ih =>
    obtain ⟨k', v'⟩ := p
    rw [List.cons_append, lookupLast_cons, ih, lookupLast_cons]
    cases lookupLast k l2 <;> cases lookupLast k rest <;> simp

theorem lookupLast_eq_none {κ α : Type} [DecidableEq κ] {k : κ} {l : List (κ × α)}
    (h : k ∉ l.map Prod.fst) : lookupLast k l = none := by
  induction l with
  | nil => rfl
  | cons p rest ih =>
    obtain ⟨k', v'⟩ := p
    have h1 : ¬ k' = k := by
      intro he
      exact h (by simp [he])
    have h2 := ih (fun hm => h (List.mem_cons_of_mem _ hm))
    rw [lookupLast_cons, h2, if_neg h1]

theorem foldl_dinsert_lookup {κ α : Type} [DecidableEq κ] (k : κ) (l : List (κ × α))
    (d0 : List (κ × α)) :
    lookupA k (l.foldl (fun d p => dinsert p.1 p.2 d) d0) =
      match lookupLast k l with
      | some w => some w
      | none => lookupA k d0 := by
  induction l generalizing d0 with
  | nil => rw [List.foldl_nil, lookupLast_nil]
  | cons p rest ih =>
    obtain ⟨k', v'⟩ := p
    rw [List.foldl_cons, ih, lookupLast_cons]
    cases hrest : lookupLast k rest with
    | some w => rfl
    | none =>
      by_cases hk : k' = k
      · subst hk
        simp [lookupA_dinsert_self]
      · simp only [if_neg hk]
        exact lookupA_dinsert_ne _ _ (fun he => hk he.symm)

theorem mem_foldl_dinsert {κ α : Type} [DecidableEq κ] {p : κ × α} {l : List (κ × α)}
    {d0 : List (κ × α)}
    (h : p ∈ l.foldl (fun d q => dinsert q.1 q.2 d) d0) : p ∈ l ∨ p ∈ d0 := by
  induction l generalizing d0 with
  | nil => exact Or.inr h
  | cons q rest ih =>
    rcases ih h with h1 | h2
    · exact Or.inl (List.mem_cons_of_mem _ h1)
    · rcases mem_dinsert h2 with h3 | h4
      · exact Or.inl (by simp [h3])
      · exact Or.inr h4

theorem nodupKeys_foldl_dinsert {κ α : Type} [DecidableEq κ] {l : List (κ × α)}
    {d0 : List (κ × α)} (h : nodupKeys d0) :
    nodupKeys (l.foldl (fun d q => dinsert q.1 q.2 d) d0) := by
  induction l generalizing d0 with
  | nil => exact h
  | cons q rest ih => exact ih (nodupKeys_dinsert q.1 q.2 h)

theorem joinC_concat (c : Char) {qs : List Str} (q : Str) (h : qs ≠ []) :
    joinC c (qs ++ [q]) = joinC c qs ++ c :: q := by
  induction qs with
  | nil => exact absurd rfl h
  | cons p rest ih =>
    cases rest with
    | nil => simp [joinC]
    | cons r rest' =>
      have ih' := ih (by simp)
      show p ++ c :: joinC c ((r :: rest') ++ [q]) = (p ++ c :: joinC c (r :: rest')) ++ c :: q
      rw [ih']
      simp

theorem modLast_concat {α : Type} (f : α → α) (qs : List α) (q : α) :
    modLast f (qs ++ [q]) = qs ++ [f q] := by
  induction qs with
  | nil => rfl
  | cons x rest ih =>
    cases rest with
    | nil => rfl
    | cons y rest' =>
      show x :: modLast f ((y :: rest') ++ [q]) = (x :: y :: rest') ++ [f q]
      rw [ih]
      simp

theorem modLast_append {α : Type} (f : α → α) (l1 : List α) {l2 : List α} (h : l2 ≠ []) :
    modLast f (l1 ++ l2) = l1 ++ modLast f l2 := by
  induction l1 with
  | nil => rfl
  | cons x rest ih =>
    cases hr : rest ++ l2 with
    | nil =>
      rcases List.append_eq_nil.mp hr with ⟨_, h2⟩
      exact absurd h2 h
    | cons y ys =>
      have step : modLast f ((x :: rest) ++ l2) = x :: modLast f (rest ++ l2) := by
        rw [List.cons_append, hr, modLast, ← hr]
      rw [step, ih]
      simp

theorem modHead_append {α : Type} (f : α → α) {l1 : List α} (l2 : List α) (h : l1 ≠ []) :
    modHead f (l1 ++ l2) = modHead f l1 ++ l2 := by
  cases l1 with
  | nil => exact absurd rfl h
  | cons x rest => rfl

theorem modLast_map {α β : Type} (f : β → β) (g : α → α) (m : α → β)
    (hc : ∀ x, f (m x) = m (g x)) (l : List α) :
    modLast f (l.map m) = (modLast g l).map m := by
  induction l with
  | nil => rfl
  | cons x rest ih =>
    cases rest with
    | nil => simp [modLast, hc]
    | cons y rest' =>
      show m x :: modLast f ((y :: rest').map m) = (x :: modLast g (y :: rest')).map m
      rw [ih]
      simp

theorem modHead_map {α β : Type} (f : β → β) (g : α → α) (m : α → β)
    (hc : ∀ x, f (m x) = m (g x)) (l : List α) :
    modHead f (l.map m) = (modHead g l).map m := by
  cases l with
  | nil => rfl
  | cons x rest => simp [modHead, hc]

theorem modLast_map_fst {α β : Type} (f : β → β) (l : List (α × β)) :
    (modLast (fun p => (p.1, f p.2)) l).map Prod.fst = l.map Prod.fst := by
  induction l with
  | nil => rfl
  | cons x rest ih =>
    cases rest with
    | nil => rfl
    | cons y rest' =>
      show x.1 :: (modLast (fun p => (p.1, f p.2)) (y :: rest')).map Prod.fst =
        x.1 :: (y :: rest').map Prod.fst
      rw [ih]

theorem modLast_ne_nil {α : Type} (f : α → α) {l : List α} (h : l ≠ []) :
    modLast f l ≠ [] := by
  cases l with
  | nil => exact absurd rfl h
  | cons x rest => cases rest <;> simp [modLast]

theorem modHead_ne_nil {α : Type} (f : α → α) {l : List α} (h : l ≠ []) :
    modHead f l ≠ [] := by
  cases l with
  | nil => exact absurd rfl h
  | cons x rest => simp [modHead]

theorem modLast_forall {α : Type} {P : α → Prop} {f : α → α} {l : List α}
    (hl : ∀ x ∈ l, P x) (hf : ∀ x, P x → P (f x)) : ∀ x ∈ modLast f l, P x := by
  induction l with
  | nil => simp [modLast]
  | cons y rest ih =>
    cases rest with
    | nil =>
      intro x hx
      rcases List.mem_singleton.mp hx with h1
      rw [h1]
      exact hf y (hl y (by simp))
    | cons z rest' =>
      intro x hx
      rw [modLast] at hx
      rcases List.mem_cons.mp hx with h1 | h2
      · rw [h1]; exact hl y (by simp)
      · exact ih (fun a ha => hl a (List.mem_cons_of_mem _ ha)) x h2

theorem modHead_forall {α : Type} {P : α → Prop} {f : α → α} {l : List α}
    (hl : ∀ x ∈ l, P x) (hf : ∀ x, P x → P (f x)) : ∀ x ∈ modHead f l, P x := by
  cases l with
  | nil => simp [modHead]
  | cons y rest =>
    intro x hx
    rcases List.mem_cons.mp hx with h1 | h2
    · rw [h1]; exact hf y (hl y (by simp))
    · exact hl x (List.mem_cons_of_mem _ h2)

theorem mem_joinC {c : Char} {x : Char} {p : Str} {ps : List Str}
    (hp : p ∈ ps) (hx : x ∈ p) : x ∈ joinC c ps := by
  induction ps with
  | nil => simp at hp
  | cons q rest ih =>
    cases rest with
    | nil =>
      rcases List.mem_singleton.mp hp with h1
      rw [h1] at hx
      simpa [joinC] using hx
    | cons r rest' =>
      rw [joinC]
      rcases List.mem_cons.mp hp with h1 | h2
      · rw [h1] at hx
        exact List.mem_append_left _ hx
      · exact List.mem_append_right _ (List.mem_cons_of_mem _ (ih h2))

theorem stripRight_joinC {c : Char} (hc : isWS c = false) {ps : List Str} (h : ps ≠ []) :
    stripRight (joinC c ps) = joinC c (modLast stripRight ps) := by
  rcases List.eq_nil_or_concat ps with h1 | ⟨qs, q, h2⟩
  · exact absurd h1 h
  · subst h2
    rw [List.concat_eq_append]
    cases qs with
    | nil => simp [joinC, modLast]
    | cons a as =>
      rw [joinC_concat c q (by simp), stripRight_mid _ hc, modLast_concat,
        joinC_concat c (stripRight q) (by simp)]

theorem stripLeft_joinC {c : Char} (hc : isWS c = false) {ps : List Str} (h : ps ≠ []) :
    stripLeft (joinC c ps) = joinC c (modHead stripLeft ps) := by
  cases ps with
  | nil => exact absurd rfl h
  | cons p rest =>
    cases rest with
    | nil => simp [joinC, modHead]
    | cons q rest' =>
      rw [joinC, stripLeft_mid _ hc, modHead, joinC]

theorem strip_joinC {c : Char} (hc : isWS c = false) {ps : List Str} (h : ps ≠ []) :
    strip (joinC c ps) = joinC c (modHead stripLeft (modLast stripRight ps)) := by
  unfold strip
  rw [stripRight_joinC hc h, stripLeft_joinC hc (modLast_ne_nil _ h)]

theorem foldl_parse_step (ps : List Str) (d0 : Dict) :
    ps.foldl (fun d part =>
      match splitFirst '=' part with
      | some (k, v) => dinsert k v d
      | none => d) d0
    = (ps.filterMap (splitFirst '=')).foldl (fun d p => dinsert p.1 p.2 d) d0 := by
  induction ps generalizing d0 with
  | nil => rfl
  | cons part rest ih =>
    rw [List.foldl_cons, List.filterMap_cons]
    cases h : splitFirst '=' part with
    | none => rw [ih]
    | some p =>
      obtain ⟨k, v⟩ := p
      rw [List.foldl_cons, ih]

theorem parse_feats_eq {s : Str} (h1 : ¬ strip s = []) (h2 : ¬ strip s = ['_']) :
    parse_feats s =
      ((splitOnChar '|' (strip s)).filterMap (splitFirst '=')).foldl
        (fun d p => dinsert p.1 p.2 d) [] := by
  unfold parse_feats
  rw [if_neg (by simp [h1, h2]), foldl_parse_step]

theorem parse_feats_nodup (s : Str) : nodupKeys (parse_feats s) := by
  unfold parse_feats
  by_cases h : strip s = [] ∨ strip s = ['_']
  · rw [if_pos h]
    simp [nodupKeys]
  · rw [if_neg h, foldl_parse_step]
    exact nodupKeys_foldl_dinsert (by simp [nodupKeys])

theorem parse_feats_entry {s : Str} {p : Str × Str} (hp : p ∈ parse_feats s) :
    '=' ∉ p.1 ∧ '|' ∉ p.1 ∧ '|' ∉ p.2 ∧ (∀ x ∈ p.1, x ∈ s) ∧ (∀ x ∈ p.2, x ∈ s) := by
  unfold parse_feats at hp
  by_cases h : strip s = [] ∨ strip s = ['_']
  · rw [if_pos h] at hp
    simp at hp
  · rw [if_neg h, foldl_parse_step] at hp
    rcases mem_foldl_dinsert hp with hmem | habs
    · rcases List.mem_filterMap.mp hmem with ⟨part, hpart, hsplit⟩
      obtain ⟨hdecomp, hne⟩ := splitFirst_some hsplit
      have hchars := mem_splitOnChar hpart
      have hsub1 : ∀ x ∈ p.1, x ∈ strip s ∧ x ≠ '|' := by
        intro x hx
        exact hchars x (by rw [hdecomp]; exact List.mem_append_left _ hx)
      have hsub2 : ∀ x ∈ p.2, x ∈ strip s ∧ x ≠ '|' := by
        intro x hx
        refine hchars x ?_
        rw [hdecomp]
        exact List.mem_append_right _ (List.mem_cons_of_mem _ hx)
      refine ⟨hne, ?_, ?_, ?_, ?_⟩
      · intro hx
        exact (hsub1 '|' hx).2 rfl
      · intro hx
        exact (hsub2 '|' hx).2 rfl
      · intro x hx
        exact mem_of_mem_strip (hsub1 x hx).1
      · intro x hx
        exact mem_of_mem_strip (hsub2 x hx).1
    · simp at habs

theorem format_feats_eq {d : Dict} (h : d ≠ []) :
    format_feats d = joinC '|' ((mkPairs d).map partOf) := by
  unfold format_feats mkPairs
  rw [if_neg h, List.map_map]
  rfl

theorem mkPairs_map_fst (d : Dict) :
    (mkPairs d).map Prod.fst = sortStrs (d.map Prod.fst) := by
  unfold mkPairs
  rw [List.map_map]
  exact List.map_id _

theorem mem_mkPairs {d : Dict} {q : Str × Str} (hq : q ∈ mkPairs d) : q ∈ d := by
  unfold mkPairs at hq
  rcases List.mem_map.mp hq with ⟨k, hk, he⟩
  have hkeys : k ∈ d.map Prod.fst := (sortStrs_perm _).mem_iff.mp hk
  cases hl : lookupA k d with
  | none => exact absurd hkeys (lookupA_eq_none.mp hl)
  | some w =>
    have := lookupA_some_mem hl
    rw [← he, hl]
    simpa using this

theorem foldl_parse_over_parts (l : List (Str × Str)) (hl : ∀ q ∈ l, '=' ∉ q.1)
    (d0 : Dict) :
    (l.map partOf).foldl (fun d part =>
      match splitFirst '=' part with
      | some (k, v) => dinsert k v d
      | none => d) d0
    = l.foldl (fun d q => dinsert q.1 q.2 d) d0 := by
  induction l generalizing d0 with
  | nil => rfl
  | cons q rest ih =>
    rw [List.map_cons, List.foldl_cons, List.foldl_cons]
    have hq : splitFirst '=' (partOf q) = some (q.1, q.2) :=
      splitFirst_app (hl q (by simp))
    rw [hq]
    exact ih (fun a ha => hl a (List.mem_cons_of_mem _ ha)) _

theorem tweak_map_partOf (l : List (Str × Str)) :
    modHead stripLeft (modLast stripRight (l.map partOf)) = (tweak l).map partOf := by
  unfold tweak
  rw [modLast_map stripRight (fun p => (p.1, stripRight p.2)) partOf
    (fun q => stripRight_mid q.1 (by decide)) l]
  rw [modHead_map stripLeft (fun p => (stripLeft p.1, p.2)) partOf
    (fun q => stripLeft_mid q.2 (by decide)) (modLast (fun p => (p.1, stripRight p.2)) l)]

theorem tweak_forall {P : Str × Str → Prop} {l : List (Str × Str)}
    (hl : ∀ q ∈ l, P q)
    (h1 : ∀ q, P q → P (q.1, stripRight q.2))
    (h2 : ∀ q, P q → P (stripLeft q.1, q.2)) : ∀ q ∈ tweak l, P q := by
  unfold tweak
  exact modHead_forall (modLast_forall hl h1) h2

theorem mem_partOf {x : Char} {q : Str × Str} :
    x ∈ partOf q ↔ x ∈ q.1 ∨ x = '=' ∨ x ∈ q.2 := by
  simp [partOf]

theorem lookupLast_tweak_middle {X Y : List (Str × Str)} {k v : Str}
    (hkY : k ∉ Y.map Prod.fst) (hks : stripLeft k = k) (hvs : stripRight v = v) :
    lookupLast k (tweak (X ++ (k, v) :: Y)) = some v := by
  unfold tweak
  have hstep1 : modLast (fun p => (p.1, stripRight p.2)) (X ++ (k, v) :: Y) =
      X ++ (k, v) :: modLast (fun p => (p.1, stripRight p.2)) Y ∨
      (Y = [] ∧ modLast (fun p => (p.1, stripRight p.2)) (X ++ (k, v) :: Y) = X ++ [(k, v)]) := by
    cases hY : Y with
    | nil =>
      right
      refine ⟨rfl, ?_⟩
      rw [modLast_concat]
      simp [hvs]
    | cons y ys =>
      left
      rw [modLast_append _ X (by simp)]
      rw [modLast]
  have key : ∀ Z : List (Str × Str), Z.map Prod.fst = Y.map Prod.fst →
      lookupLast k (modHead (fun p => (stripLeft p.1, p.2)) (X ++ (k, v) :: Z)) = some v := by
    intro Z hZ
    have hkZ : k ∉ Z.map Prod.fst := by rw [hZ]; exact hkY
    have hinner : lookupLast k ((k, v) :: Z) = some v := by
      rw [lookupLast_cons, lookupLast_eq_none hkZ, if_pos rfl]
    cases hX : X with
    | nil =>
      simp only [List.nil_append, modHead]
      show lookupLast k ((stripLeft k, v) :: Z) = some v
      rw [hks]
      exact hinner
    | cons x xs =>
      rw [modHead_append _ _ (by simp)]
      rw [lookupLast_append]
      rw [hinner]
  rcases hstep1 with h1 | ⟨hY, h2⟩
  · rw [h1]
    exact key _ (modLast_map_fst _ _)
  · rw [h2]
    subst hY
    exact key [] rfl

theorem lookupLast_middle {X Y : List (Str × Str)} {k v : Str}
    (hkY : k ∉ Y.map Prod.fst) : lookupLast k (X ++ (k, v) :: Y) = some v := by
  rw [lookupLast_append, lookupLast_cons, lookupLast_eq_none hkY, if_pos rfl]

theorem modLast_congr_id {α : Type} {f : α → α} {l : List α}
    (h : ∀ x ∈ l, f x = x) : modLast f l = l := by
  induction l with
  | nil => rfl
  | cons x rest ih =>
    cases rest with
    | nil => simp [modLast, h x (by simp)]
    | cons y rest' =>
      rw [modLast, ih (fun a ha => h a (List.mem_cons_of_mem _ ha))]

theorem modHead_congr_id {α : Type} {f : α → α} {l : List α}
    (h : ∀ x ∈ l, f x = x) : modHead f l = l := by
  cases l with
  | nil => rfl
  | cons x rest => simp [modHead, h x (by simp)]

/-- The central codec fact behind idempotence of the synchronizer: after
serializing any well-formed feature dictionary, re-parsing recovers the value
of any key that is free of whitespace at its front, provided its value has no
trailing whitespace; pipes may not occur in any key or value and equals signs
may not occur in keys (parse_feats output always satisfies this). -/
theorem lookupA_parse_format (d : Dict) (k v : Str)
    (hnd : nodupKeys d)
    (hkeys : ∀ p ∈ d, '=' ∉ p.1 ∧ '|' ∉ p.1)
    (hvals : ∀ p ∈ d, '|' ∉ p.2)
    (hlk : lookupA k d = some v)
    (hks : stripLeft k = k)
    (hvs : stripRight v = v) :
    lookupA k (parse_feats (format_feats d)) = some v := by
  have hdne : d ≠ [] := by
    intro he
    rw [he, lookupA_nil] at hlk
    cases hlk
  have hkkeys : k ∈ d.map Prod.fst := mem_map_fst_of_lookupA_some hlk
  have hsmem : k ∈ sortStrs (d.map Prod.fst) := (sortStrs_perm _).mem_iff.mpr hkkeys
  obtain ⟨A, B, hAB⟩ := List.append_of_mem hsmem
  have hnods : (sortStrs (d.map Prod.fst)).Nodup := ((sortStrs_perm _).nodup_iff).mpr hnd
  rw [hAB] at hnods
  have hdisj := List.nodup_append.mp hnods
  have hkA : k ∉ A := fun hk => hdisj.2.2 hk (by simp)
  have hkB : k ∉ B := (List.nodup_cons.mp hdisj.2.1).1
  have hmk : mkPairs d = A.map (fun kk => (kk, (lookupA kk d).getD []))
      ++ (k, v) :: B.map (fun kk => (kk, (lookupA kk d).getD [])) := by
    unfold mkPairs
    rw [hAB, List.map_append, List.map_cons]
    simp [hlk]
  have hne : mkPairs d ≠ [] := by rw [hmk]; simp
  have hF : format_feats d = joinC '|' ((mkPairs d).map partOf) := format_feats_eq hdne
  have hprops : ∀ q ∈ mkPairs d, '=' ∉ q.1 ∧ '|' ∉ q.1 ∧ '|' ∉ q.2 := by
    intro q hq
    have hmemd := mem_mkPairs hq
    exact ⟨(hkeys q hmemd).1, (hkeys q hmemd).2, hvals q hmemd⟩
  have hTprops : ∀ q ∈ tweak (mkPairs d), '=' ∉ q.1 ∧ '|' ∉ q.1 ∧ '|' ∉ q.2 := by
    refine tweak_forall hprops ?_ ?_
    · intro q hP
      exact ⟨hP.1, hP.2.1, fun hc => hP.2.2 (mem_of_mem_stripRight hc)⟩
    · intro q hP
      exact ⟨fun hc => hP.1 (mem_of_mem_stripLeft hc),
        fun hc => hP.2.1 (mem_of_mem_stripLeft hc), hP.2.2⟩
  have hmapne : (mkPairs d).map partOf ≠ [] := by
    intro hc
    exact hne (by simpa using hc)
  have hstrip : strip (format_feats d) = joinC '|' ((tweak (mkPairs d)).map partOf) := by
    rw [hF, strip_joinC (by decide) hmapne, tweak_map_partOf]
  have hTne : tweak (mkPairs d) ≠ [] := by
    unfold tweak
    exact modHead_ne_nil _ (modLast_ne_nil _ hne)
  have hEqMem : '=' ∈ strip (format_feats d) := by
    rw [hstrip]
    cases hT : tweak (mkPairs d) with
    | nil => exact absurd hT hTne
    | cons t0 ts =>
      exact mem_joinC (p := partOf t0) (by simp) (mem_partOf.mpr (Or.inr (Or.inl rfl)))
  have hs1 : ¬ strip (format_feats d) = [] := by
    intro he
    rw [he] at hEqMem
    simp at hEqMem
  have hs2 : ¬ strip (format_feats d) = ['_'] := by
    intro he
    rw [he] at hEqMem
    exact absurd (List.mem_singleton.mp hEqMem) (by decide)
  have hsplit : splitOnChar '|' (strip (format_feats d)) = (tweak (mkPairs d)).map partOf := by
    rw [hstrip]
    refine splitOnChar_joinC ?_ (by
      intro hc
      exact hTne (by simpa using hc))
    intro part hpart hbar
    rcases List.mem_map.mp hpart with ⟨q, hq, he⟩
    rw [← he] at hbar
    rcases mem_partOf.mp hbar with h1 | h2 | h3
    · exact (hTprops q hq).2.1 h1
    · exact absurd h2 (by decide)
    · exact (hTprops q hq).2.2 h3
  unfold parse_feats
  rw [if_neg (by simp [hs1, hs2]), hsplit,
    foldl_parse_over_parts _ (fun q hq => (hTprops q hq).1) _,
    foldl_dinsert_lookup]
  have hYfst : (B.map (fun kk => (kk, (lookupA kk d).getD []))).map Prod.fst = B := by
    rw [List.map_map]
    exact List.map_id _
  have hlast : lookupLast k (tweak (mkPairs d)) = some v := by
    rw [hmk]
    exact lookupLast_tweak_middle (by rw [hYfst]; exact hkB) hks hvs
  rw [hlast]

theorem parse_format_eq_fold (d : Dict) (hdne : d ≠ [])
    (hprops : ∀ q ∈ mkPairs d, '=' ∉ q.1 ∧ '|' ∉ q.1 ∧ '|' ∉ q.2) :
    parse_feats (format_feats d) =
      (tweak (mkPairs d)).foldl (fun dd q => dinsert q.1 q.2 dd) [] := by
  have hne : mkPairs d ≠ [] := by
    unfold mkPairs
    intro hc
    have h2 : sortStrs (d.map Prod.fst) = [] := by simpa using hc
    have h3 := (sortStrs_perm (d.map Prod.fst)).length_eq
    rw [h2] at h3
    exact hdne (by simpa using (List.eq_nil_of_length_eq_zero h3.symm))
  have hTprops : ∀ q ∈ tweak (mkPairs d), '=' ∉ q.1 ∧ '|' ∉ q.1 ∧ '|' ∉ q.2 := by
    refine tweak_forall hprops ?_ ?_
    · intro q hP
      exact ⟨hP.1, hP.2.1, fun hc => hP.2.2 (mem_of_mem_stripRight hc)⟩
    · intro q hP
      exact ⟨fun hc => hP.1 (mem_of_mem_stripLeft hc),
        fun hc => hP.2.1 (mem_of_mem_stripLeft hc), hP.2.2⟩
  have hmapne : (mkPairs d).map partOf ≠ [] := by
    intro hc
    exact hne (by simpa using hc)
  have hF : format_feats d = joinC '|' ((mkPairs d).map partOf) := format_feats_eq hdne
  have hstrip : strip (format_feats d) = joinC '|' ((tweak (mkPairs d)).map partOf) := by
    rw [hF, strip_joinC (by decide) hmapne, tweak_map_partOf]
  have hTne : tweak (mkPairs d) ≠ [] := by
    unfold tweak
    exact modHead_ne_nil _ (modLast_ne_nil _ hne)
  have hEqMem : '=' ∈ strip (format_feats d) := by
    rw [hstrip]
    cases hT : tweak (mkPairs d) with
    | nil => exact absurd hT hTne
    | cons t0 ts =>
      exact mem_joinC (p := partOf t0) (by simp) (mem_partOf.mpr (Or.inr (Or.inl rfl)))
  have hs1 : ¬ strip (format_feats d) = [] := by
    intro he
    rw [he] at hEqMem
    simp at hEqMem
  have hs2 : ¬ strip (format_feats d) = ['_'] := by
    intro he
    rw [he] at hEqMem
    exact absurd (List.mem_singleton.mp hEqMem) (by decide)
  have hsplit : splitOnChar '|' (strip (format_feats d)) = (tweak (mkPairs d)).map partOf := by
    rw [hstrip]
    refine splitOnChar_joinC ?_ (by
      intro hc
      exact hTne (by simpa using hc))
    intro part hpart hbar
    rcases List.mem_map.mp hpart with ⟨q, hq, he⟩
    rw [← he] at hbar
    rcases mem_partOf.mp hbar with h1 | h2 | h3
    · exact (hTprops q hq).2.1 h1
    · exact absurd h2 (by decide)
    · exact (hTprops q hq).2.2 h3
  unfold parse_feats
  rw [if_neg (by simp [hs1, hs2]), hsplit,
    foldl_parse_over_parts _ (fun q hq => (hTprops q hq).1) _]

theorem roundtrip_lookup (m : Dict) (hnd : nodupKeys m)
    (hplain : ∀ p ∈ m, plainStr p.1 ∧ plainStr p.2) (q : Str) :
    lookupA q (parse_feats (format_feats m)) = lookupA q m := by
  by_cases hm : m = []
  · subst hm
    rfl
  · have hprops : ∀ p ∈ mkPairs m, '=' ∉ p.1 ∧ '|' ∉ p.1 ∧ '|' ∉ p.2 := by
      intro p hp
      have hd := mem_mkPairs hp
      exact ⟨(hplain p hd).1.1, (hplain p hd).1.2.1, (hplain p hd).2.2.1⟩
    have hid : tweak (mkPairs m) = mkPairs m := by
      unfold tweak
      rw [modLast_congr_id (fun x hx => by
        have hv := stripRight_eq_self ((hplain x (mem_mkPairs hx)).2.2.2)
        cases x with
        | mk a b => simpa using hv)]
      exact modHead_congr_id (fun x hx => by
        have hk := stripLeft_eq_self ((hplain x (mem_mkPairs hx)).1.2.2)
        cases x with
        | mk a b => simpa using hk)
    rw [parse_format_eq_fold m hm hprops, hid, foldl_dinsert_lookup]
    cases hq : lookupA q m with
    | none =>
      have hnot : q ∉ (mkPairs m).map Prod.fst := by
        rw [mkPairs_map_fst]
        intro hc
        exact (lookupA_eq_none.mp hq) ((sortStrs_perm _).mem_iff.mp hc)
      rw [lookupLast_eq_none hnot]
      rfl
    | some w =>
      have hsmem : q ∈ sortStrs (m.map Prod.fst) :=
        (sortStrs_perm _).mem_iff.mpr (mem_map_fst_of_lookupA_some hq)
      obtain ⟨A, B, hAB⟩ := List.append_of_mem hsmem
      have hnods : (sortStrs (m.map Prod.fst)).Nodup := ((sortStrs_perm _).nodup_iff).mpr hnd
      rw [hAB] at hnods
      have hdisj := List.nodup_append.mp hnods
      have hkB : q ∉ B := (List.nodup_cons.mp hdisj.2.1).1
      have hmk : mkPairs m = A.map (fun kk => (kk, (lookupA kk m).getD []))
          ++ (q, w) :: B.map (fun kk => (kk, (lookupA kk m).getD [])) := by
        unfold mkPairs
        rw [hAB, List.map_append, List.map_cons]
        simp [hq]
      have hYfst : (B.map (fun kk => (kk, (lookupA kk m).getD []))).map Prod.fst = B := by
        rw [List.map_map]
        exact List.map_id _
      rw [hmk, lookupLast_middle (by rw [hYfst]; exact hkB)]

theorem mkPairs_ne_nil {d : Dict} (hd : d ≠ []) : mkPairs d ≠ [] := by
  unfold mkPairs
  intro hc
  have h2 : sortStrs (d.map Prod.fst) = [] := by simpa using hc
  have h3 := (sortStrs_perm (d.map Prod.fst)).length_eq
  rw [h2] at h3
  exact hd (by simpa using (List.eq_nil_of_length_eq_zero h3.symm))

theorem mem_joinC_elim {c x : Char} {ps : List Str} (h : x ∈ joinC c ps) :
    x = c ∨ ∃ p ∈ ps, x ∈ p := by
  induction ps with
  | nil => simp [joinC] at h
  | cons q rest ih =>
    cases rest with
    | nil =>
      right
      exact ⟨q, by simp, by simpa [joinC] using h⟩
    | cons r rest' =>
      rw [joinC] at h
      rcases List.mem_append.mp h with h1 | h2
      · exact Or.inr ⟨q, by simp, h1⟩
      · rcases List.mem_cons.mp h2 with h3 | h4
        · exact Or.inl h3
        · rcases ih h4 with h5 | ⟨p, hp, hx⟩
          · exact Or.inl h5
          · exact Or.inr ⟨p, List.mem_cons_of_mem _ hp, hx⟩

theorem mem_format_chars {d : Dict} (hd : d ≠ []) {x : Char} (h : x ∈ format_feats d) :
    x = '|' ∨ x = '=' ∨ ∃ p ∈ d, x ∈ p.1 ∨ x ∈ p.2 := by
  rw [format_feats_eq hd] at h
  rcases mem_joinC_elim h with h1 | ⟨part, hpart, hx⟩
  · exact Or.inl h1
  · rcases List.mem_map.mp hpart with ⟨q, hq, he⟩
    rw [← he] at hx
    rcases mem_partOf.mp hx with h2 | h3 | h4
    · exact Or.inr (Or.inr ⟨q, mem_mkPairs hq, Or.inl h2⟩)
    · exact Or.inr (Or.inl h3)
    · exact Or.inr (Or.inr ⟨q, mem_mkPairs hq, Or.inr h4⟩)

theorem eq_mem_format {d : Dict} (hd : d ≠ []) : '=' ∈ format_feats d := by
  rw [format_feats_eq hd]
  cases hm : mkPairs d with
  | nil => exact absurd hm (mkPairs_ne_nil hd)
  | cons q rest =>
    exact mem_joinC (p := partOf q) (by simp) (mem_partOf.mpr (Or.inr (Or.inl rfl)))

theorem strip_ne_nil_of_mem {x : Char} {s : Str} (hx : x ∈ s) (hws : isWS x = false) :
    strip s ≠ [] := by
  intro h
  have hmem : x ∈ strip s :=
    mem_stripLeft_of_not_ws hws (mem_stripRight_of_not_ws hws hx)
  rw [h] at hmem
  simp at hmem

theorem head?_joinC {c : Char} {p : Str} {ps : List Str} (h : ps ≠ []) :
    (joinC c (p :: ps)).head? = some (p.headD c) := by
  cases ps with
  | nil => exact absurd rfl h
  | cons q rest =>
    rw [joinC]
    cases p with
    | nil => rfl
    | cons y ys => rfl

theorem mergeTriple_lookups (d : Dict) (g n r : Str) :
    lookupA genK (mergeTriple d g n r).1 = some g ∧
    lookupA numK (mergeTriple d g n r).1 = some n ∧
    lookupA ratK (mergeTriple d g n r).1 = some r := by
  have hgn : genK ≠ numK := by decide
  have hgr : genK ≠ ratK := by decide
  have hng : numK ≠ genK := by decide
  have hnr : numK ≠ ratK := by decide
  have hrg : ratK ≠ genK := by decide
  have hrn : ratK ≠ numK := by decide
  simp only [mergeTriple]
  split_ifs with h1 h2 h3 h4 h5 h6 h7 <;>
    refine ⟨?_, ?_, ?_⟩ <;>
    simp_all [lookupA_dinsert_self, lookupA_dinsert_ne _ _ hgn, lookupA_dinsert_ne _ _ hgr,
      lookupA_dinsert_ne _ _ hng, lookupA_dinsert_ne _ _ hnr, lookupA_dinsert_ne _ _ hrg,
      lookupA_dinsert_ne _ _ hrn]

theorem mergeTriple_frame (d : Dict) (g n r : Str) {k : Str}
    (h1 : k ≠ genK) (h2 : k ≠ numK) (h3 : k ≠ ratK) :
    lookupA k (mergeTriple d g n r).1 = lookupA k d := by
  simp only [mergeTriple]
  split_ifs <;>
    simp [lookupA_dinsert_ne _ _ h1, lookupA_dinsert_ne _ _ h2, lookupA_dinsert_ne _ _ h3]

theorem mergeTriple_nodup (d : Dict) (g n r : Str) (h : nodupKeys d) :
    nodupKeys (mergeTriple d g n r).1 := by
  simp only [mergeTriple]
  split_ifs <;>
    first
      | exact h
      | exact nodupKeys_dinsert _ _ h
      | exact nodupKeys_dinsert _ _ (nodupKeys_dinsert _ _ h)
      | exact nodupKeys_dinsert _ _ (nodupKeys_dinsert _ _ (nodupKeys_dinsert _ _ h))

theorem mergeTriple_mem (d : Dict) (g n r : Str) {p : Str × Str}
    (hp : p ∈ (mergeTriple d g n r).1) :
    p ∈ d ∨ p = (genK, g) ∨ p = (numK, n) ∨ p = (ratK, r) := by
  simp only [mergeTriple] at hp
  split_ifs at hp <;>
    (repeat' rcases mem_dinsert hp with hp | hp) <;> tauto

theorem mergeTriple_unchanged (d : Dict) (g n r : Str) (h1 : lookupA genK d = some g)
    (h2 : lookupA numK d = some n) (h3 : lookupA ratK d = some r) :
    mergeTriple d g n r = (d, false) := by
  simp [mergeTriple, h1, h2, h3]

theorem mergeTriple_ne_nil (d : Dict) (g n r : Str) : (mergeTriple d g n r).1 ≠ [] := by
  intro hc
  have := (mergeTriple_lookups d g n r).1
  rw [hc, lookupA_nil] at this
  cases this

theorem getD_cons_zero' {α : Type} (x : α) (xs : List α) (d : α) :
    (x :: xs).getD 0 d = x := rfl

theorem getD_cons_succ' {α : Type} (x : α) (xs : List α) (i : Nat) (d : α) :
    (x :: xs).getD (i + 1) d = xs.getD i d := rfl

theorem set_cons_zero' {α : Type} (x : α) (xs : List α) (a : α) :
    (x :: xs).set 0 a = a :: xs := rfl

theorem set_cons_succ' {α : Type} (x : α) (xs : List α) (i : Nat) (a : α) :
    (x :: xs).set (i + 1) a = x :: xs.set i a := rfl

theorem getD_mem {α : Type} {l : List α} {i : Nat} (h : i < l.length) (d : α) :
    l.getD i d ∈ l := by
  induction l generalizing i with
  | nil => simp at h
  | cons x xs ih =>
    cases i with
    | zero => simp [getD_cons_zero']
    | succ i' =>
      rw [getD_cons_succ']
      exact List.mem_cons_of_mem _ (ih (by simpa using h))

theorem mem_set_self {α : Type} {l : List α} {i : Nat} (h : i < l.length) (a : α) :
    a ∈ l.set i a := by
  induction l generalizing i with
  | nil => simp at h
  | cons x xs ih =>
    cases i with
    | zero => simp [set_cons_zero']
    | succ i' =>
      rw [set_cons_succ']
      exact List.mem_cons_of_mem _ (ih (by simpa using h))

theorem mem_of_mem_set {α : Type} {l : List α} {i : Nat} {a q : α}
    (h : q ∈ l.set i a) : q ∈ l ∨ q = a := by
  induction l generalizing i with
  | nil => simp [List.set] at h
  | cons x xs ih =>
    cases i with
    | zero =>
      rw [set_cons_zero'] at h
      rcases List.mem_cons.mp h with h1 | h2
      · exact Or.inr h1
      · exact Or.inl (List.mem_cons_of_mem _ h2)
    | succ i' =>
      rw [set_cons_succ'] at h
      rcases List.mem_cons.mp h with h1 | h2
      · exact Or.inl (by simp [h1])
      · rcases ih h2 with h3 | h4
        · exact Or.inl (List.mem_cons_of_mem _ h3)
        · exact Or.inr h4

theorem getD_set_self {α : Type} {l : List α} {i : Nat} (h : i < l.length) (a d : α) :
    (l.set i a).getD i d = a := by
  induction l generalizing i with
  | nil => simp at h
  | cons x xs ih =>
    cases i with
    | zero => rfl
    | succ i' =>
      rw [set_cons_succ', getD_cons_succ']
      exact ih (by simpa using h)

theorem getD_set_ne {α : Type} {l : List α} {i j : Nat} (hij : i ≠ j) (a d : α) :
    (l.set i a).getD j d = l.getD j d := by
  induction l generalizing i j with
  | nil => simp [List.set]
  | cons x xs ih =>
    cases i with
    | zero =>
      cases j with
      | zero => exact absurd rfl hij
      | succ j' => rfl
    | succ i' =>
      cases j with
      | zero => rfl
      | succ j' =>
        rw [set_cons_succ', getD_cons_succ', getD_cons_succ']
        exact ih (fun hc => hij (congrArg Nat.succ hc))

theorem syncLine_passthrough (lk : Lookup) (ln : Str)
    (h : strip ln = [] ∨ ln.head? = some '#') : syncLine lk ln = (ln, false, false) := by
  unfold syncLine
  rw [if_pos h]

theorem syncLine_eq (lk : Lookup) (ln : Str)
    (h1 : ¬ (strip ln = [] ∨ ln.head? = some '#'))
    (h2 : ¬ (splitOnChar '\t' ln).length < 10) :
    syncLine lk ln =
      match choose_conllu_key (parse_misc ((splitOnChar '\t' ln).getD 9 [])) with
      | none => (ln, false, false)
      | some key =>
        if key = [] then (ln, false, false)
        else
          match lookupA key lk with
          | none => (ln, false, false)
          | some (g, n, r) =>
            let m := mergeTriple (parse_feats ((splitOnChar '\t' ln).getD 5 [])) g n r
            if m.2 then
              (joinC '\t' ((splitOnChar '\t' ln).set 5 (format_feats m.1)), true, true)
            else (ln, true, false) := by
  simp only [syncLine]
  rw [if_neg h1, if_neg h2]

theorem syncLine_cases (lk : Lookup) (ln : Str) :
    syncLine lk ln = (ln, (syncLine lk ln).2.1, false) ∨
    (∃ g n r key,
      (¬ (strip ln = [] ∨ ln.head? = some '#')) ∧
      (¬ (splitOnChar '\t' ln).length < 10) ∧
      choose_conllu_key (parse_misc ((splitOnChar '\t' ln).getD 9 [])) = some key ∧
      key ≠ [] ∧
      lookupA key lk = some (g, n, r) ∧
      (mergeTriple (parse_feats ((splitOnChar '\t' ln).getD 5 [])) g n r).2 = true ∧
      syncLine lk ln =
        (joinC '\t' ((splitOnChar '\t' ln).set 5
          (format_feats (mergeTriple (parse_feats ((splitOnChar '\t' ln).getD 5 [])) g n r).1)),
         true, true)) := by
  by_cases h1 : strip ln = [] ∨ ln.head? = some '#'
  · left
    simp [syncLine_passthrough lk ln h1]
  · by_cases h2 : (splitOnChar '\t' ln).length < 10
    · left
      have e : syncLine lk ln = (ln, false, false) := by
        unfold syncLine
        rw [if_neg h1, if_pos h2]
      simp [e]
    · have he := syncLine_eq lk ln h1 h2
      cases hck : choose_conllu_key (parse_misc ((splitOnChar '\t' ln).getD 9 [])) with
      | none =>
        have e : syncLine lk ln = (ln, false, false) := by
          rw [he, hck]
        left
        simp [e]
      | some key =>
        by_cases hkey : key = []
        · have e : syncLine lk ln = (ln, false, false) := by
            rw [he, hck]
            simp only [if_pos hkey]
          left
          simp [e]
        · cases hlkk : lookupA key lk with
          | none =>
            have e : syncLine lk ln = (ln, false, false) := by
              rw [he, hck]
              simp only [if_neg hkey, hlkk]
            left
            simp [e]
          | some t =>
            obtain ⟨g, n, r⟩ := t
            by_cases hch : (mergeTriple (parse_feats ((splitOnChar '\t' ln).getD 5 [])) g n r).2 = true
            · right
              refine ⟨g, n, r, key, h1, h2, rfl, hkey, hlkk, hch, ?_⟩
              rw [he, hck]
              simp only [if_neg hkey, hlkk]
              rw [if_pos hch]
            · have e : syncLine lk ln = (ln, true, false) := by
                rw [he, hck]
                simp only [if_neg hkey, hlkk]
                rw [if_neg hch]
              left
              simp [e]

theorem syncLine_not_updated_out (lk : Lookup) (ln : Str)
    (h : (syncLine lk ln).2.2 = false) : (syncLine lk ln).1 = ln := by
  rcases syncLine_cases lk ln with hc | ⟨g, n, r, key, _, _, _, _, _, _, he⟩
  · rw [hc]
  · rw [he] at h
    simp at h

theorem syncLine_idem (lk : Lookup)
    (hlk : ∀ p ∈ lk, syncSafe p.2.1 ∧ syncSafe p.2.2.1 ∧ syncSafe p.2.2.2) (ln : Str) :
    (syncLine lk (syncLine lk ln).1).1 = (syncLine lk ln).1 ∧
    (syncLine lk (syncLine lk ln).1).2.2 = false := by
  rcases syncLine_cases lk ln with hc | ⟨g, n, r, key, h1, h2, hck, hkey, hlkk, hch, he⟩
  · have hout : (syncLine lk ln).1 = ln := by rw [hc]
    refine ⟨?_, ?_⟩
    · rw [hout]
      exact hout
    · rw [hout, hc]
  · set cols := splitOnChar '\t' ln with hcols
    set d0 := parse_feats (cols.getD 5 []) with hd0
    set m := mergeTriple d0 g n r with hm
    set F := format_feats m.1 with hFdef
    set o := joinC '\t' (cols.set 5 F) with ho
    have hsafeg : syncSafe g := (hlk (key, (g, n, r)) (lookupA_some_mem hlkk)).1
    have hsafen : syncSafe n := (hlk (key, (g, n, r)) (lookupA_some_mem hlkk)).2.1
    have hsafer : syncSafe r := (hlk (key, (g, n, r)) (lookupA_some_mem hlkk)).2.2
    have hlen10 : 10 ≤ cols.length := Nat.le_of_not_lt h2
    have hglen : 5 < cols.length := by omega
    obtain ⟨c0, rest, hcr⟩ : ∃ c0 rest, cols = c0 :: rest := by
      cases hc0 : cols with
      | nil =>
        rw [hc0] at hlen10
        simp at hlen10
      | cons a b => exact ⟨a, b, rfl⟩
    have hrestlen : 9 ≤ rest.length := by
      rw [hcr] at hlen10
      simp at hlen10
      omega
    obtain ⟨r0, rest2, hr2⟩ : ∃ a b, rest = a :: b := by
      cases hrc : rest with
      | nil =>
        rw [hrc] at hrestlen
        simp at hrestlen
      | cons a b => exact ⟨a, b, rfl⟩
    have hcolstab : ∀ q ∈ cols, '\t' ∉ q := fun q hq hx => (mem_splitOnChar hq '\t' hx).2 rfl
    have hf5tab : '\t' ∉ cols.getD 5 [] := hcolstab _ (getD_mem hglen [])
    have hFtab : '\t' ∉ F := by
      intro hx
      rcases mem_format_chars (mergeTriple_ne_nil d0 g n r) hx with hb | hb | ⟨p, hp, hin⟩
      · exact absurd hb (by decide)
      · exact absurd hb (by decide)
      · rcases mergeTriple_mem d0 g n r hp with hpd | hpe | hpe | hpe
        · have hent := parse_feats_entry hpd
          rcases hin with hin1 | hin2
          · exact hf5tab (hent.2.2.2.1 _ hin1)
          · exact hf5tab (hent.2.2.2.2 _ hin2)
        · rw [hpe] at hin
          have hin' : '\t' ∈ genK ∨ '\t' ∈ g := hin
          rcases hin' with hin1 | hin2
          · exact absurd hin1 (by decide)
          · exact absurd (hsafeg.2 _ hin2) (by decide)
        · rw [hpe] at hin
          have hin' : '\t' ∈ numK ∨ '\t' ∈ n := hin
          rcases hin' with hin1 | hin2
          · exact absurd hin1 (by decide)
          · exact absurd (hsafen.2 _ hin2) (by decide)
        · rw [hpe] at hin
          have hin' : '\t' ∈ ratK ∨ '\t' ∈ r := hin
          rcases hin' with hin1 | hin2
          · exact absurd hin1 (by decide)
          · exact absurd (hsafer.2 _ hin2) (by decide)
    have hsettab : ∀ q ∈ cols.set 5 F, '\t' ∉ q := by
      intro q hq
      rcases mem_of_mem_set hq with hmem | heq
      · exact hcolstab q hmem
      · rw [heq]
        exact hFtab
    have hsetshape : cols.set 5 F = c0 :: rest.set 4 F := by
      rw [hcr]
      rfl
    have hsetne : cols.set 5 F ≠ [] := by
      rw [hsetshape]
      simp
    have hOsplit : splitOnChar '\t' o = cols.set 5 F := by
      rw [ho]
      exact splitOnChar_joinC hsettab hsetne
    have hOlen : ¬ (splitOnChar '\t' o).length < 10 := by
      rw [hOsplit]
      simpa using h2
    have hmisc9 : (splitOnChar '\t' o).getD 9 [] = cols.getD 9 [] := by
      rw [hOsplit]
      exact getD_set_ne (by omega) F []
    have hfeat5 : (splitOnChar '\t' o).getD 5 [] = F := by
      rw [hOsplit]
      exact getD_set_self hglen F []
    have hEqO : '=' ∈ o := by
      rw [ho]
      exact mem_joinC (mem_set_self hglen F) (eq_mem_format (mergeTriple_ne_nil d0 g n r))
    have hOstrip : strip o ≠ [] := strip_ne_nil_of_mem hEqO (by decide)
    have hOhead : ¬ o.head? = some '#' := by
      have hrestset_ne : rest.set 4 F ≠ [] := by
        rw [hr2]
        simp
      have hohead : o.head? = some (c0.headD '\t') := by
        rw [ho, hsetshape, head?_joinC hrestset_ne]
      have hrest_ne : rest ≠ [] := by
        rw [hr2]
        simp
      have hlnhead : ln.head? = some (c0.headD '\t') := by
        conv_lhs => rw [← joinC_splitOnChar '\t' ln]
        rw [← hcols, hcr, head?_joinC hrest_ne]
      rw [hohead, ← hlnhead]
      exact (not_or.mp h1).2
    have hb2 : ¬ (strip o = [] ∨ o.head? = some '#') := by
      rw [not_or]
      exact ⟨hOstrip, hOhead⟩
    have hnd2 : nodupKeys m.1 := mergeTriple_nodup _ _ _ _ (parse_feats_nodup _)
    have hkeys2 : ∀ p ∈ m.1, '=' ∉ p.1 ∧ '|' ∉ p.1 := by
      intro p hp
      rcases mergeTriple_mem d0 g n r hp with hpd | hpe | hpe | hpe
      · have hent := parse_feats_entry hpd
        exact ⟨hent.1, hent.2.1⟩
      · rw [hpe]
        exact ⟨(by decide : '=' ∉ genK), (by decide : '|' ∉ genK)⟩
      · rw [hpe]
        exact ⟨(by decide : '=' ∉ numK), (by decide : '|' ∉ numK)⟩
      · rw [hpe]
        exact ⟨(by decide : '=' ∉ ratK), (by decide : '|' ∉ ratK)⟩
    have hvals2 : ∀ p ∈ m.1, '|' ∉ p.2 := by
      intro p hp
      rcases mergeTriple_mem d0 g n r hp with hpd | hpe | hpe | hpe
      · exact (parse_feats_entry hpd).2.2.1
      · rw [hpe]
        exact hsafeg.1
      · rw [hpe]
        exact hsafen.1
      · rw [hpe]
        exact hsafer.1
    have hg : lookupA genK (parse_feats F) = some g :=
      lookupA_parse_format m.1 genK g hnd2 hkeys2 hvals2
        (mergeTriple_lookups d0 g n r).1 (by decide) (stripRight_eq_self hsafeg.2)
    have hn : lookupA numK (parse_feats F) = some n :=
      lookupA_parse_format m.1 numK n hnd2 hkeys2 hvals2
        (mergeTriple_lookups d0 g n r).2.1 (by decide) (stripRight_eq_self hsafen.2)
    have hr : lookupA ratK (parse_feats F) = some r :=
      lookupA_parse_format m.1 ratK r hnd2 hkeys2 hvals2
        (mergeTriple_lookups d0 g n r).2.2 (by decide) (stripRight_eq_self hsafer.2)
    have hm2 : mergeTriple (parse_feats F) g n r = (parse_feats F, false) :=
      mergeTriple_unchanged _ _ _ _ hg hn hr
    clear_value cols d0 m F o
    have hsync2 : syncLine lk o = (o, true, false) := by
      rw [syncLine_eq lk o hb2 hOlen, hmisc9, hck]
      simp only [if_neg hkey, hlkk]
      rw [hfeat5, hm2]
      rw [if_neg (by simp)]
    rw [he]
    simp [hsync2]

theorem syncLine_frame (lk : Lookup)
    (htab : ∀ p ∈ lk, '\t' ∉ p.2.1 ∧ '\t' ∉ p.2.2.1 ∧ '\t' ∉ p.2.2.2) (ln : Str) :
    (syncLine lk ln).1 = ln ∨
    ((splitOnChar '\t' (syncLine lk ln).1).length = (splitOnChar '\t' ln).length ∧
     ∀ j, ¬ j = 5 → (splitOnChar '\t' (syncLine lk ln).1).getD j [] =
       (splitOnChar '\t' ln).getD j []) := by
  rcases syncLine_cases lk ln with hc | ⟨g, n, r, key, h1, h2, hck, hkey, hlkk, hch, he⟩
  · left
    rw [hc]
  · right
    set cols := splitOnChar '\t' ln with hcols
    set d0 := parse_feats (cols.getD 5 []) with hd0
    set m := mergeTriple d0 g n r with hm
    set F := format_feats m.1 with hFdef
    have hgt : '\t' ∉ g := (htab (key, (g, n, r)) (lookupA_some_mem hlkk)).1
    have hnt : '\t' ∉ n := (htab (key, (g, n, r)) (lookupA_some_mem hlkk)).2.1
    have hrt : '\t' ∉ r := (htab (key, (g, n, r)) (lookupA_some_mem hlkk)).2.2
    have hlen10 : 10 ≤ cols.length := Nat.le_of_not_lt h2
    have hglen : 5 < cols.length := by omega
    have hcolstab : ∀ q ∈ cols, '\t' ∉ q := fun q hq hx => (mem_splitOnChar hq '\t' hx).2 rfl
    have hf5tab : '\t' ∉ cols.getD 5 [] := hcolstab _ (getD_mem hglen [])
    have hFtab : '\t' ∉ F := by
      intro hx
      rcases mem_format_chars (mergeTriple_ne_nil d0 g n r) hx with hb | hb | ⟨p, hp, hin⟩
      · exact absurd hb (by decide)
      · exact absurd hb (by decide)
      · rcases mergeTriple_mem d0 g n r hp with hpd | hpe | hpe | hpe
        · have hent := parse_feats_entry hpd
          rcases hin with hin1 | hin2
          · exact hf5tab (hent.2.2.2.1 _ hin1)
          · exact hf5tab (hent.2.2.2.2 _ hin2)
        · rw [hpe] at hin
          have hin' : '\t' ∈ genK ∨ '\t' ∈ g := hin
          rcases hin' with hin1 | hin2
          · exact absurd hin1 (by decide)
          · exact hgt hin2
        · rw [hpe] at hin
          have hin' : '\t' ∈ numK ∨ '\t' ∈ n := hin
          rcases hin' with hin1 | hin2
          · exact absurd hin1 (by decide)
          · exact hnt hin2
        · rw [hpe] at hin
          have hin' : '\t' ∈ ratK ∨ '\t' ∈ r := hin
          rcases hin' with hin1 | hin2
          · exact absurd hin1 (by decide)
          · exact hrt hin2
    have hsettab : ∀ q ∈ cols.set 5 F, '\t' ∉ q := by
      intro q hq
      rcases mem_of_mem_set hq with hmem | heq
      · exact hcolstab q hmem
      · rw [heq]
        exact hFtab
    have hsetne : cols.set 5 F ≠ [] := by
      intro hcn
      have hL := congrArg List.length hcn
      rw [List.length_set] at hL
      simp only [List.length_nil] at hL
      omega
    have hOsplit : splitOnChar '\t' (syncLine lk ln).1 = cols.set 5 F := by
      rw [he]
      exact splitOnChar_joinC hsettab hsetne
    constructor
    · rw [hOsplit, List.length_set]
    · intro j hj
      rw [hOsplit]
      exact getD_set_ne (fun hc => hj hc.symm) F []

theorem sync_fold_aux (lk : Lookup) (lines : List Str) :
    ∀ (o : List Str) (mc uc : Nat),
      lines.foldl (fun acc ln =>
        let r := syncLine lk ln
        (acc.1 ++ [r.1], acc.2.1 + (if r.2.1 then 1 else 0),
         acc.2.2 + (if r.2.2 then 1 else 0))) (o, mc, uc) =
      (o ++ lines.map (fun ln => (syncLine lk ln).1),
       mc + lines.countP (fun ln => (syncLine lk ln).2.1),
       uc + lines.countP (fun ln => (syncLine lk ln).2.2)) := by
  induction lines with
  | nil => simp
  | cons ln rest ih =>
    intro o mc uc
    rw [List.foldl_cons]
    rw [ih]
    cases hb1 : (syncLine lk ln).2.1 <;> cases hb2 : (syncLine lk ln).2.2 <;>
      simp [List.countP_cons, hb1, hb2, Nat.add_comm, Nat.add_assoc, Nat.add_left_comm]

theorem sync_eq_map (lines : List Str) (lk : Lookup) :
    sync_conllu_with_magold lines lk =
      (lines.map (fun ln => (syncLine lk ln).1),
       lines.countP (fun ln => (syncLine lk ln).2.1),
       lines.countP (fun ln => (syncLine lk ln).2.2)) := by
  unfold sync_conllu_with_magold
  rw [sync_fold_aux lk lines [] 0 0]
  simp

theorem mem_foldl_append {α β : Type} (g : β → List α) {l : List β} :
    ∀ {acc : List α} {r : α}, r ∈ l.foldl (fun a x => a ++ g x) acc → r ∈ acc ∨ ∃ x ∈ l, r ∈ g x := by
  induction l with
  | nil => exact fun h => Or.inl h
  | cons x rest ih =>
    intro acc r h
    rw [List.foldl_cons] at h
    rcases ih h with hacc | ⟨y, hy, hr⟩
    · rcases List.mem_append.mp hacc with h1 | h2
      · exact Or.inl h1
      · exact Or.inr ⟨x, by simp, h2⟩
    · exact Or.inr ⟨y, List.mem_cons_of_mem _ hy, hr⟩

theorem sentRows_mem {si : Nat} {toks : List (Nat × Tok)} {r : Row}
    (hr : r ∈ sentRows si toks) :
    ∃ dep_id dep h, (dep_id, dep) ∈ toks ∧ dep.deprel = modRelK ∧
      is_adj_token dep.upos dep.xpos (parse_misc dep.misc_raw) = true ∧
      lookupA dep.head toks = some h ∧
      is_noun_like (parse_misc h.misc_raw) h.upos h.xpos = true ∧
      r = mkRow si dep_id dep h := by
  unfold sentRows at hr
  suffices haux : ∀ (l : List (Nat × Tok)) (acc : List Row),
      r ∈ l.foldl (fun rows p =>
        let dep := p.2
        if dep.deprel = modRelK then
          if is_adj_token dep.upos dep.xpos (parse_misc dep.misc_raw) then
            match lookupA dep.head toks with
            | some h =>
              if is_noun_like (parse_misc h.misc_raw) h.upos h.xpos then
                rows ++ [mkRow si p.1 dep h]
              else rows
            | none => rows
          else rows
        else rows) acc →
      r ∈ acc ∨ ∃ dep_id dep h, (dep_id, dep) ∈ l ∧ dep.deprel = modRelK ∧
        is_adj_token dep.upos dep.xpos (parse_misc dep.misc_raw) = true ∧
        lookupA dep.head toks = some h ∧
        is_noun_like (parse_misc h.misc_raw) h.upos h.xpos = true ∧
        r = mkRow si dep_id dep h by
    rcases haux toks [] hr with h0 | hex
    · simp at h0
    · exact hex
  intro l
  induction l with
  | nil =>
    intro acc h
    exact Or.inl h
  | cons p rest ih =>
    intro acc h
    rw [List.foldl_cons] at h
    rcases ih _ h with hacc | ⟨dep_id, dep, hh, hmem, hc1, hc2, hc3, hc4, hc5⟩
    · simp only at hacc
      by_cases c1 : p.2.deprel = modRelK
      · rw [if_pos c1] at hacc
        by_cases c2 : is_adj_token p.2.upos p.2.xpos (parse_misc p.2.misc_raw) = true
        · rw [if_pos c2] at hacc
          cases hl : lookupA p.2.head toks with
          | none =>
            rw [hl] at hacc
            exact Or.inl hacc
          | some h2 =>
            rw [hl] at hacc
            simp only [] at hacc
            by_cases c3 : is_noun_like (parse_misc h2.misc_raw) h2.upos h2.xpos = true
            · rw [if_pos c3] at hacc
              rcases List.mem_append.mp hacc with ha | hb
              · exact Or.inl ha
              · refine Or.inr ⟨p.1, p.2, h2, by simp, c1, c2, hl, c3, ?_⟩
                simpa using hb
            · rw [if_neg c3] at hacc
              exact Or.inl hacc
        · rw [if_neg c2] at hacc
          exact Or.inl hacc
      · rw [if_neg c1] at hacc
        exact Or.inl hacc
    · exact Or.inr ⟨dep_id, dep, hh, List.mem_cons_of_mem _ hmem, hc1, hc2, hc3, hc4, hc5⟩

theorem extractPairs_mem {lines : List Str} {r : Row} (hr : r ∈ extractPairs lines) :
    ∃ pr ∈ (read_conllu_sentences lines).enum, r ∈ sentRows (pr.1 + 1) (sentTokens pr.2) := by
  unfold extractPairs at hr
  rcases mem_foldl_append (fun pr : Nat × List Str => sentRows (pr.1 + 1) (sentTokens pr.2)) hr
    with h0 | hex
  · simp at h0
  · exact hex

theorem parse_token_line_dashdot {line : Str}
    (h : '-' ∈ (splitOnChar '\t' line).getD 0 [] ∨ '.' ∈ (splitOnChar '\t' line).getD 0 []) :
    parse_token_line line = none := by
  simp only [parse_token_line]
  by_cases h1 : line.head? = some '#'
  · rw [if_pos h1]
  · rw [if_neg h1]
    by_cases h2 : (splitOnChar '\t' line).length < 10
    · rw [if_pos h2]
    · rw [if_neg h2]
      have hcond : ((splitOnChar '\t' line).getD 0 []).contains '-' = true ∨
          ((splitOnChar '\t' line).getD 0 []).contains '.' = true := by
        rcases h with h | h
        · exact Or.inl (by simpa using h)
        · exact Or.inr (by simpa using h)
      rw [if_pos hcond]

theorem parse_token_line_head {line : Str} {t : Tok}
    (h : parse_token_line line = some t)
    (hd : pyIsdigit ((splitOnChar '\t' line).getD 6 []) = false) :
    t.head = 0 := by
  simp only [parse_token_line] at h
  by_cases h1 : line.head? = some '#'
  · rw [if_pos h1] at h
    simp at h
  · rw [if_neg h1] at h
    by_cases h2 : (splitOnChar '\t' line).length < 10
    · rw [if_pos h2] at h
      simp at h
    · rw [if_neg h2] at h
      by_cases h3 : ((splitOnChar '\t' line).getD 0 []).contains '-' = true ∨
          ((splitOnChar '\t' line).getD 0 []).contains '.' = true
      · rw [if_pos h3] at h
        simp at h
      · rw [if_neg h3] at h
        cases hp : pyInt ((splitOnChar '\t' line).getD 0 []) with
        | none =>
          rw [hp] at h
          simp at h
        | some i =>
          rw [hp] at h
          simp only [Option.some.injEq] at h
          rw [← h]
          show (if pyIsdigit ((splitOnChar '\t' line).getD 6 []) = true
            then digitsVal ((splitOnChar '\t' line).getD 6 []) else 0) = 0
          rw [hd]
          simp

theorem mem_enumFrom_snd {α : Type} : ∀ {s : Nat} {l : List α} {p : Nat × α},
    p ∈ l.enumFrom s → p.2 ∈ l := by
  intro s l
  induction l generalizing s with
  | nil => intro p h; simp [List.enumFrom] at h
  | cons x rest ih =>
    intro p h
    rw [List.enumFrom] at h
    rcases List.mem_cons.mp h with h1 | h2
    · rw [h1]
      simp
    · exact List.mem_cons_of_mem _ (ih h2)

theorem mem_enum_snd {α : Type} {l : List α} {p : Nat × α} (h : p ∈ l.enum) : p.2 ∈ l :=
  mem_enumFrom_snd h

theorem getD_map {α β : Type} (f : α → β) {l : List α} {i : Nat} (h : i < l.length)
    (d : β) (d2 : α) : (l.map f).getD i d = f (l.getD i d2) := by
  induction l generalizing i with
  | nil => simp at h
  | cons x rest ih =>
    cases i with
    | zero => rfl
    | succ i' =>
      rw [List.map_cons, getD_cons_succ', getD_cons_succ']
      exact ih (by simpa using h)

theorem optStrFalsy_some_ne {s : Str} (h : s ≠ []) : optStrFalsy (some s) = false := by
  cases s with
  | nil => exact absurd rfl h
  | cons a b => rfl

/- ----------------------------------------------------------------
   Claim theorems
   ---------------------------------------------------------------- -/

/-- Claim C1, counterexample: a line whose id column is the multi-word span
1-2 and whose annotation map resolves to a lookup key bound to a differing
triple is rewritten by the Synchronizer, so its raw line does not survive
byte-for-byte into the synchronized output, contrary to the claim. -/
theorem c1_counterexample :
    ('-' ∈ (splitOnChar '\t' c1Line).getD 0 []) ∧
    (sync_conllu_with_magold [c1Line] c1Lookup).1 ≠ [c1Line] := by
  constructor
  · decide
  · decide

/-- Claim C1 (amended): a token line whose first tab-separated field holds a
dash or a dot never yields a parsed Token Record; the Synchronizer does not
inspect the id column at all, and preserves a line byte-for-byte exactly when
its updated flag is not raised (in particular whenever the line does not
resolve to a nonempty lookup key bound to a differing feature triple). -/
theorem c1_multiword_exclusion :
    (∀ line : Str,
      ('-' ∈ (splitOnChar '\t' line).getD 0 [] ∨ '.' ∈ (splitOnChar '\t' line).getD 0 []) →
      parse_token_line line = none) ∧
    (∀ (lk : Lookup) (ln : Str), (syncLine lk ln).2.2 = false → (syncLine lk ln).1 = ln) :=
  ⟨fun _ h => parse_token_line_dashdot h, fun lk ln h => syncLine_not_updated_out lk ln h⟩

/-- Witness for C1 at the concrete multi-word line. -/
theorem c1_witness :
    parse_token_line c1Line = none ∧ (syncLine [] c1Line).1 = c1Line :=
  ⟨c1_multiword_exclusion.1 c1Line (Or.inl (by decide)),
   c1_multiword_exclusion.2 [] c1Line (by decide)⟩

/-- Claim C2, counterexample: the mapping from the single key a|b (which
contains no equals sign) to c does not survive the round trip, because the
pipe inside the key collides with the entry separator. -/
theorem c2_counterexample :
    (∀ p ∈ c2Map, '=' ∉ p.1 ∧ '=' ∉ p.2) ∧
    lookupA "a|b".toList (parse_feats (format_feats c2Map)) ≠ lookupA "a|b".toList c2Map := by
  constructor
  · decide
  · decide

/-- Claim C2 (amended): for every mapping with pairwise distinct keys in
which no key and no value contains an equals sign, a pipe, or a whitespace
character, parsing the serialized form gives back the same mapping. -/
theorem c2_roundtrip (m : Dict) (hnd : nodupKeys m)
    (hplain : ∀ p ∈ m, plainStr p.1 ∧ plainStr p.2) (q : Str) :
    lookupA q (parse_feats (format_feats m)) = lookupA q m :=
  roundtrip_lookup m hnd hplain q

/-- Witness for C2 at a concrete one-entry mapping. -/
theorem c2_witness :
    lookupA genK (parse_feats (format_feats [(genK, "f".toList)])) =
      lookupA genK [(genK, "f".toList)] :=
  c2_roundtrip [(genK, "f".toList)] (by decide) (by decide) genK

/-- Claim C5 (confirmed): the key resolution returns the surface_plus_bw
value whenever that entry is present (regardless of surface_form_bw), the
surface_form_bw value only when surface_plus_bw is absent, and no key when
both are absent, in which case the Synchronizer passes the line through with
neither counter incremented. -/
theorem c5_key_precedence :
    (∀ (misc : Dict) (v : Str), lookupA spbK misc = some v →
      choose_conllu_key misc = some v) ∧
    (∀ (misc : Dict) (w : Str), lookupA spbK misc = none → lookupA sfbK misc = some w →
      choose_conllu_key misc = some w) ∧
    (∀ misc : Dict, lookupA spbK misc = none → lookupA sfbK misc = none →
      choose_conllu_key misc = none) ∧
    (∀ (lk : Lookup) (ln : Str),
      ¬ (strip ln = [] ∨ ln.head? = some '#') →
      ¬ (splitOnChar '\t' ln).length < 10 →
      choose_conllu_key (parse_misc ((splitOnChar '\t' ln).getD 9 [])) = none →
      syncLine lk ln = (ln, false, false)) := by
  refine ⟨?_, ?_, ?_, ?_⟩
  · intro misc v h
    unfold choose_conllu_key
    rw [h]
  · intro misc w h1 h2
    unfold choose_conllu_key
    rw [h1, h2]
  · intro misc h1 h2
    unfold choose_conllu_key
    rw [h1, h2]
  · intro lk ln hb hl hc
    rw [syncLine_eq lk ln hb hl, hc]

/-- Witness for C5: with both keys present the surface_plus_bw value wins. -/
theorem c5_witness : choose_conllu_key c5Misc = some ("X".toList) :=
  c5_key_precedence.1 c5Misc "X".toList (by decide)

/-- Claim C8 (confirmed): the merge step of the Synchronizer (the three
conditional overwrites applied to a parsed feature map) only ever adds the
keys gen, num and rat, and leaves the value of every other key unchanged. -/
theorem c8_merge_frame :
    (∀ (d : Dict) (g n r : Str) (k : Str), lookupA k (mergeTriple d g n r).1 ≠ none →
      lookupA k d ≠ none ∨ k = genK ∨ k = numK ∨ k = ratK) ∧
    (∀ (d : Dict) (g n r : Str) (k : Str), k ≠ genK → k ≠ numK → k ≠ ratK →
      lookupA k (mergeTriple d g n r).1 = lookupA k d) := by
  constructor
  · intro d g n r k h
    by_cases h1 : k = genK
    · exact Or.inr (Or.inl h1)
    by_cases h2 : k = numK
    · exact Or.inr (Or.inr (Or.inl h2))
    by_cases h3 : k = ratK
    · exact Or.inr (Or.inr (Or.inr h3))
    left
    rw [← mergeTriple_frame d g n r h1 h2 h3]
    exact h
  · intro d g n r k h1 h2 h3
    exact mergeTriple_frame d g n r h1 h2 h3

/-- Witness for C8 at a concrete feature map. -/
theorem c8_witness :
    lookupA "x".toList (mergeTriple (parse_feats "x=1".toList)
      "f".toList "p".toList "i".toList).1 = lookupA "x".toList (parse_feats "x=1".toList) :=
  c8_merge_frame.2 (parse_feats "x=1".toList) "f".toList "p".toList "i".toList
    "x".toList (by decide) (by decide) (by decide)

/-- Claim C3, counterexample: with a lookup whose gender value contains a
pipe, the second Synchronizer run over the first run's output performs one
further update, so the update count of the second run is not zero. -/
theorem c3_counterexample :
    (sync_conllu_with_magold (sync_conllu_with_magold c3Lines c3Lookup).1 c3Lookup).2.2 ≠ 0 := by
  decide

/-- Claim C3 (amended): the Synchronizer is idempotent provided no value in
the lookup's triples contains a pipe or a whitespace character (the builder's
regex never produces whitespace in a value, but pipes can occur): the second
run performs zero updates and returns the first run's output unchanged. -/
theorem c3_sync_idempotent (lines : List Str) (lk : Lookup)
    (hlk : ∀ p ∈ lk, syncSafe p.2.1 ∧ syncSafe p.2.2.1 ∧ syncSafe p.2.2.2) :
    (sync_conllu_with_magold (sync_conllu_with_magold lines lk).1 lk).2.2 = 0 ∧
    (sync_conllu_with_magold (sync_conllu_with_magold lines lk).1 lk).1 =
      (sync_conllu_with_magold lines lk).1 := by
  rw [sync_eq_map lines lk]
  rw [sync_eq_map (lines.map (fun ln => (syncLine lk ln).1)) lk]
  constructor
  · rw [List.countP_eq_zero]
    intro a ha
    rcases List.mem_map.mp ha with ⟨ln, hln, he⟩
    rw [← he]
    simp [(syncLine_idem lk hlk ln).2]
  · rw [List.map_map]
    refine List.map_congr_left ?_
    intro ln hln
    exact (syncLine_idem lk hlk ln).1

/-- Witness for C3 at a concrete line and a well-behaved lookup. -/
theorem c3_witness :
    (sync_conllu_with_magold (sync_conllu_with_magold c3Lines c1Lookup).1 c1Lookup).2.2 = 0 :=
  (c3_sync_idempotent c3Lines c1Lookup (by decide)).1

/-- Claim C4, counterexample: a line whose annotation map carries an empty
surface_plus_bw value resolves to the empty key; even though that key is
present in the lookup and the feature map already equals the triple, the
Python falsiness test on the key skips the line, so the matched counter is
not incremented, contrary to the claim (the line is byte-identical though). -/
theorem c4_counterexample :
    choose_conllu_key (parse_misc ((splitOnChar '\t' c4Line).getD 9 [])) = some [] ∧
    lookupA ([] : Str) c4Lookup = some ("f".toList, "p".toList, "i".toList) ∧
    lookupA genK (parse_feats ((splitOnChar '\t' c4Line).getD 5 [])) = some ("f".toList) ∧
    lookupA numK (parse_feats ((splitOnChar '\t' c4Line).getD 5 [])) = some ("p".toList) ∧
    lookupA ratK (parse_feats ((splitOnChar '\t' c4Line).getD 5 [])) = some ("i".toList) ∧
    (syncLine c4Lookup c4Line).2.1 = false := by
  decide

/-- Claim C4 (amended): for every well-formed tree line that resolves to a
nonempty lookup key present in the lookup, if the line's parsed feature map
already agrees with the triple on gen, num and rat, the Synchronizer returns
the line byte-identical with the matched flag raised and the updated flag
not raised. -/
theorem c4_matched_unchanged (lk : Lookup) (ln : Str) (key g n r : Str)
    (h1 : ¬ (strip ln = [] ∨ ln.head? = some '#'))
    (h2 : ¬ (splitOnChar '\t' ln).length < 10)
    (hck : choose_conllu_key (parse_misc ((splitOnChar '\t' ln).getD 9 [])) = some key)
    (hkey : key ≠ [])
    (hlkk : lookupA key lk = some (g, n, r))
    (hg : lookupA genK (parse_feats ((splitOnChar '\t' ln).getD 5 [])) = some g)
    (hn : lookupA numK (parse_feats ((splitOnChar '\t' ln).getD 5 [])) = some n)
    (hr : lookupA ratK (parse_feats ((splitOnChar '\t' ln).getD 5 [])) = some r) :
    syncLine lk ln = (ln, true, false) := by
  rw [syncLine_eq lk ln h1 h2, hck]
  simp only [if_neg hkey, hlkk]
  rw [mergeTriple_unchanged _ _ _ _ hg hn hr]
  rw [if_neg (by simp)]

/-- Witness for C4 at a concrete already-synchronized line. -/
theorem c4_witness : syncLine c1Lookup c4wLine = (c4wLine, true, false) :=
  c4_matched_unchanged c1Lookup c4wLine "K".toList "f".toList "p".toList "i".toList
    (by decide) (by decide) (by decide) (by decide) (by decide)
    (by decide) (by decide) (by decide)

/-- Claim C9, counterexample: with a lookup value containing a tab, the
rewritten line gains an extra tab, so its seventh tab-separated field
differs from the input's seventh field: the change is not confined to the
sixth field. -/
theorem c9_counterexample :
    (splitOnChar '\t' ((sync_conllu_with_magold c3Lines c9Lookup).1.getD 0 [])).getD 6 [] ≠
      (splitOnChar '\t' (c3Lines.getD 0 [])).getD 6 [] := by
  decide

/-- Claim C9 (amended): provided no lookup value contains a tab, the
Synchronizer's output has exactly one line per input line, and each output
line is either byte-identical to its input line or has the same number of
tab-separated fields with every field other than the sixth unchanged. -/
theorem c9_sync_frame (lines : List Str) (lk : Lookup)
    (htab : ∀ p ∈ lk, '\t' ∉ p.2.1 ∧ '\t' ∉ p.2.2.1 ∧ '\t' ∉ p.2.2.2) :
    (sync_conllu_with_magold lines lk).1.length = lines.length ∧
    ∀ i, i < lines.length →
      ((sync_conllu_with_magold lines lk).1.getD i [] = lines.getD i [] ∨
       ((splitOnChar '\t' ((sync_conllu_with_magold lines lk).1.getD i [])).length =
          (splitOnChar '\t' (lines.getD i [])).length ∧
        ∀ j, ¬ j = 5 →
          (splitOnChar '\t' ((sync_conllu_with_magold lines lk).1.getD i [])).getD j [] =
            (splitOnChar '\t' (lines.getD i [])).getD j [])) := by
  rw [sync_eq_map]
  constructor
  · simp
  · intro i hi
    rw [getD_map _ hi [] []]
    exact syncLine_frame lk htab (lines.getD i [])

/-- Witness for C9 at a concrete line and tab-free lookup. -/
theorem c9_witness :
    (sync_conllu_with_magold c3Lines c1Lookup).1.length = c3Lines.length :=
  (c9_sync_frame c3Lines c1Lookup (by decide)).1

/-- Claim C7 (confirmed): every emitted pair row comes from a sentence of
the input in which the dependent token carries the MOD relation, passes the
adjective test, has a head id bound in that sentence's id-to-token mapping,
and the bound head passes the noun-like test; the row's relation, dependent
id and head id record exactly those tokens. -/
theorem c7_extraction_sound (lines : List Str) (r : Row) (hr : r ∈ extractPairs lines) :
    ∃ sent, sent ∈ read_conllu_sentences lines ∧
    ∃ dep_id dep h, (dep_id, dep) ∈ sentTokens sent ∧
      dep.deprel = modRelK ∧
      is_adj_token dep.upos dep.xpos (parse_misc dep.misc_raw) = true ∧
      lookupA dep.head (sentTokens sent) = some h ∧
      is_noun_like (parse_misc h.misc_raw) h.upos h.xpos = true ∧
      r.deprel = modRelK ∧ r.adj_id = dep_id ∧ r.head_id = dep.head := by
  rcases extractPairs_mem hr with ⟨pr, hpr, hrows⟩
  rcases sentRows_mem hrows with ⟨dep_id, dep, h, hmem, h1, h2, h3, h4, h5⟩
  refine ⟨pr.2, mem_enum_snd hpr, dep_id, dep, h, hmem, h1, h2, h3, h4, ?_, ?_, ?_⟩
  · rw [h5]
    simpa [mkRow] using h1
  · rw [h5]
    rfl
  · rw [h5]
    rfl

/-- Witness for C7 at a concrete two-token sentence with one MOD edge. -/
theorem c7_witness :
    (c7Row ∈ extractPairs c7Lines) ∧
    (∃ sent, sent ∈ read_conllu_sentences c7Lines ∧
     ∃ dep_id dep h, (dep_id, dep) ∈ sentTokens sent ∧
       dep.deprel = modRelK ∧
       is_adj_token dep.upos dep.xpos (parse_misc dep.misc_raw) = true ∧
       lookupA dep.head (sentTokens sent) = some h ∧
       is_noun_like (parse_misc h.misc_raw) h.upos h.xpos = true ∧
       c7Row.deprel = modRelK ∧ c7Row.adj_id = dep_id ∧ c7Row.head_id = dep.head) :=
  ⟨by decide, c7_extraction_sound c7Lines c7Row (by decide)⟩

/-- Claim C10, counterexample: an ordinal id of 0 is accepted by the parser,
so 0 can be a key of the id-to-token mapping; a MOD adjective whose head id
is 0 then yields an emitted pair, contrary to the claim that a head id of 0
never yields one. -/
theorem c10_counterexample :
    lookupA 0 (sentTokens c10Lines) ≠ none ∧
    (extractPairs c10Lines).length = 1 ∧
    ((extractPairs c10Lines).getD 0 default).head_id = 0 := by
  refine ⟨by decide, by decide, by decide⟩

/-- Claim C10 (amended): a parseable token line whose head column is not a
nonempty digit string parses with head id 0; and a token whose head id is
absent from the sentence's id-to-token mapping never yields an emitted pair
as a dependent (head id 0 yields a pair exactly when a token with id 0
exists, which a line with id column 0 can produce). -/
theorem c10_head_fallback :
    (∀ (line : Str) (t : Tok), parse_token_line line = some t →
      pyIsdigit ((splitOnChar '\t' line).getD 6 []) = false → t.head = 0) ∧
    (∀ (si : Nat) (toks : List (Nat × Tok)) (r : Row), r ∈ sentRows si toks →
      lookupA r.head_id toks ≠ none) := by
  constructor
  · intro line t h hd
    exact parse_token_line_head h hd
  · intro si toks r hr
    rcases sentRows_mem hr with ⟨dep_id, dep, h, _, _, _, h3, _, h5⟩
    rw [h5]
    show lookupA dep.head toks ≠ none
    rw [h3]
    simp

/-- Witness for C10 at a concrete line with a non-numeric head column. -/
theorem c10_witness :
    parse_token_line c10wLine = some c10wTok ∧ c10wTok.head = 0 :=
  ⟨by decide, c10_head_fallback.1 c10wLine c10wTok (by decide) (by decide)⟩

/-- Claim C6, counterexample: for the analysis line with bw value ++X/NOUN,
the registered transliterated key is X (all leading plus signs stripped by
lstrip), not +X as the claim's one-plus-stripped reading predicts. -/
theorem c6_counterexample :
    lookupA "+X".toList (build_magold_lookup [c6Line]) = none ∧
    lookupA "X".toList (build_magold_lookup [c6Line]) =
      some ("f".toList, "p".toList, "i".toList) := by
  constructor
  · decide
  · decide

/-- Claim C6 (amended): for every retained analysis line whose bw tag is
present, the transliterated key registered in the lookup is the substring of
the bw value before its first slash with every leading plus sign stripped
(when that is nonempty), bound to the extracted (gen, num, rat) triple; and
a line registers nothing at all when gen, num or rat is missing or is the
na sentinel. -/
theorem c6_bw_key_registration :
    (∀ (lk : Lookup) (line0 : Str) (gv nv rv bv : Str),
      ¬ (strip line0 = [] ∨ ¬ (strip line0).head? = some '*') →
      extract_field (strip line0) genK = some gv → gv ≠ naK →
      extract_field (strip line0) numK = some nv → nv ≠ naK →
      extract_field (strip line0) ratK = some rv → rv ≠ naK →
      extract_field (strip line0) bwK = some bv →
      (bv.takeWhile (fun c => c ≠ '/')).dropWhile (fun c => c = '+') ≠ [] →
      lookupA ((bv.takeWhile (fun c => c ≠ '/')).dropWhile (fun c => c = '+'))
        (magoldStep lk line0) = some (gv, nv, rv)) ∧
    (∀ (lk : Lookup) (line0 : Str),
      ((extract_field (strip line0) genK = none ∨ extract_field (strip line0) genK = some naK) ∨
       (extract_field (strip line0) numK = none ∨ extract_field (strip line0) numK = some naK) ∨
       (extract_field (strip line0) ratK = none ∨ extract_field (strip line0) ratK = some naK)) →
      magoldStep lk line0 = lk) := by
  constructor
  · intro lk line0 gv nv rv bv hstar hg hgna hn hnna hr hrna hb htok
    simp only [magoldStep]
    rw [if_neg hstar]
    rw [if_neg (by simp [hg, hn, hr, hgna, hnna, hrna])]
    rw [hb, hg, hn, hr]
    simp only [Option.getD_some]
    rw [optStrFalsy_some_ne htok]
    rw [if_neg (by simp)]
    exact lookupA_dinsert_self _ _ _
  · intro lk line0 hbad
    simp only [magoldStep]
    by_cases hstar : strip line0 = [] ∨ ¬ (strip line0).head? = some '*'
    · rw [if_pos hstar]
    · rw [if_neg hstar, if_pos hbad]

/-- Witness for C6 at the concrete double-plus line and an na line. -/
theorem c6_witness :
    lookupA (("++X/NOUN".toList.takeWhile (fun c => c ≠ '/')).dropWhile (fun c => c = '+'))
      (magoldStep [] c6Line) = some ("f".toList, "p".toList, "i".toList) ∧
    magoldStep [] c6naLine = [] :=
  ⟨c6_bw_key_registration.1 [] c6Line "f".toList "p".toList "i".toList "++X/NOUN".toList
      (by decide) (by decide) (by decide) (by decide) (by decide) (by decide) (by decide)
      (by decide) (by decide),
   c6_bw_key_registration.2 [] c6naLine (Or.inl (Or.inr (by decide)))⟩
